import Mathlib

/-!
Verification of the graph-resolution core of `autokeras/auto/auto_model.py`
(`GraphAutoModel._build_network`, `_search_network`, `_add_hypermodel`,
`_add_node`, `build`, `_infer_metrics`, `_infer_loss`).

Shallow embedding conventions:
* `Node`s are arena indices `0, 1, ..., numNodes - 1`; `Block`s (hypermodels)
  are indices into `Graph.blocks`, in user declaration order.
* A node's `out_hypermodels` / `in_hypermodels` attachment lists are derived
  from the block list: the blocks having the node among their inputs
  (resp. outputs), in declaration order — exactly the order in which the
  user's topology declaration attaches blocks to nodes.
* Python's `self.node_to_id` dict (insertion-ordered, value = len at insert
  time) is a `List Nat` of nodes in insertion order: the id of node `n` is
  its position in the list.  `self.hypermodels` is a `List Nat` of block
  indices.  Python sets used only for membership are `List Nat` as well.
* The recursive `_search_network` is given explicit fuel so that it is a
  total structural recursion; `fuelOut` is an artifact of the embedding and
  is proved unreachable for well-formed graphs at the standard fuel.
* Exceptions (`ValueError`, `IndexError`) become the `NetErr` sum.
-/

set_option maxHeartbeats 1000000

/-- A computation block (hypermodel): stable name, ordered input nodes,
ordered output nodes, and whether it is a `ClassificationHead`
(the only block type `_infer_metrics` / `_infer_loss` inspect). -/
structure Block where
  name : String
  inputs : List Nat
  outputs : List Nat
  isClassificationHead : Bool
  deriving DecidableEq, Repr

/-- Out-of-range block accesses (never reached on well-formed graphs). -/
def defaultBlock : Block := ⟨"", [], [], false⟩

/-- A declared topology: an arena of `numNodes` nodes, the declared blocks
in declaration order, and the declared graph-level input and output nodes
(`self.inputs`, `self.outputs`). -/
structure Graph where
  numNodes : Nat
  blocks : List Block
  inputs : List Nat
  outputs : List Nat
  deriving DecidableEq, Repr

def blockAt (g : Graph) (i : Nat) : Block := g.blocks.getD i defaultBlock

/-- `node.out_hypermodels`: the blocks consuming node `n`, in declaration
order. -/
def outHypermodels (g : Graph) (n : Nat) : List Nat :=
  (List.range g.blocks.length).filter (fun i => decide (n ∈ (blockAt g i).inputs))

/-- `node.in_hypermodels`: the blocks producing node `n`, in declaration
order. -/
def inHypermodels (g : Graph) (n : Nat) : List Nat :=
  (List.range g.blocks.length).filter (fun i => decide (n ∈ (blockAt g i).outputs))

/-- Concatenation of the output-node lists of a list of blocks. -/
def catOutputs (g : Graph) : List Nat → List Nat
  | [] => []
  | b :: rest => (blockAt g b).outputs ++ catOutputs g rest

/-- The nodes visited from `n` by the two nested loops of `_search_network`
(lines 168-175): for each block of `n.out_hypermodels`, each of its output
nodes, in order. -/
def childrenOf (g : Graph) (n : Nat) : List Nat := catOutputs g (outHypermodels g n)

/-- The errors `_build_network` can raise, plus the embedding's fuel
artifact.  `cycle` is `ValueError "The network has a cycle."`;
`disconnected` is `ValueError "Inputs and outputs not connected."`;
`missingInput` is `ValueError "A required input is missing for HyperModel
{name}. "`; `indexError` is the unguarded `output_node.in_hypermodels[0]`
failing on an empty list. -/
inductive NetErr where
  | cycle
  | disconnected
  | missingInput (name : String)
  | indexError
  | fuelOut
  deriving DecidableEq, Repr

/-- `_add_node` (lines 193-195): insert `n` with the next dense id if
absent. -/
def addNode (id : List Nat) (n : Nat) : List Nat := if n ∈ id then id else id ++ [n]

/-- The `for output_node in hypermodel.outputs: self._add_node(output_node)`
loop of `_add_hypermodel` (lines 187-188). -/
def addNodes (id : List Nat) : List Nat → List Nat
  | [] => id
  | n :: rest => addNodes (addNode id n) rest

/-- The inner child loop of `_search_network` (lines 168-175), parameterized
by the recursive call `recur` (the caller passes `_search_network` at the
next smaller fuel).  State threaded: `node_to_id` (`id`), the shared
`visited_nodes` (`vis`); `in_stack_nodes` (`stk`) is restored by each
recursive call, so it is passed unchanged.  `r` is `outputs_reached`. -/
def runChildren (g : Graph)
    (recur : Nat → List Nat → List Nat → List Nat → Except NetErr (List Nat × List Nat)) :
    List Nat → List Nat → List Nat → List Nat → Bool →
    Except NetErr (List Nat × List Nat × Bool)
  | [], id, vis, _, r => .ok (id, vis, r)
  | c :: rest, id, vis, stk, r =>
    if c ∈ stk then .error .cycle
    else
      match (if c ∈ vis then Except.ok (id, vis) else recur c id vis stk :
          Except NetErr (List Nat × List Nat)) with
      | .error e => .error e
      | .ok (id2, vis2) => runChildren g recur rest id2 vis2 stk (r || decide (c ∈ id2))

/-- `_search_network` (lines 160-180): mark `n` visited and on-stack,
process the children (cycle check / recursion / `outputs_reached` update),
then add `n` to `node_to_id` iff an output was reached; the stack entry is
dropped on return (the caller keeps its own `stk`). -/
def searchNetwork (g : Graph) :
    Nat → Nat → List Nat → List Nat → List Nat → Except NetErr (List Nat × List Nat)
  | 0, _, _, _, _ => .error .fuelOut
  | fuel + 1, n, id, vis, stk =>
    match runChildren g (searchNetwork g fuel) (childrenOf g n) id (n :: vis) (n :: stk)
        (decide (n ∈ g.outputs)) with
    | .error e => .error e
    | .ok (id2, vis2, r) => .ok ((if r then addNode id2 n else id2), vis2)

/-- Phase 1 of `_build_network` (lines 128-129): search from each declared
input with fresh `visited` and `stack` sets, threading `node_to_id`. -/
def phase1 (g : Graph) (fuel : Nat) : List Nat → List Nat → Except NetErr (List Nat)
  | id, [] => .ok id
  | id, i :: rest =>
    match searchNetwork g fuel i id [] [] with
    | .error e => .error e
    | .ok (id2, _) => phase1 g fuel id2 rest

/-- `_add_hypermodel` (lines 182-191): dedup-append the block, add all its
output nodes to `node_to_id`, then require every input node to carry an id
(else the missing-input `ValueError` naming the block). -/
def addHypermodel (g : Graph) (b : Nat) (hms id : List Nat) :
    Except NetErr (List Nat × List Nat) :=
  let hms2 := if b ∈ hms then hms else hms ++ [b]
  let id2 := addNodes id (blockAt g b).outputs
  if (blockAt g b).inputs.all (fun n => decide (n ∈ id2)) then .ok (hms2, id2)
  else .error (.missingInput (blockAt g b).name)

/-- The `for output_node in hypermodel.outputs` enqueue loop (lines
151-155): enqueue output nodes that are unvisited and in `node_to_id`. -/
def enqueueOutputs (id : List Nat) : List Nat → List Nat → List Nat → List Nat × List Nat
  | [], q, vis => (q, vis)
  | o :: rest, q, vis =>
    if o ∉ vis ∧ o ∈ id then enqueueOutputs id rest (q ++ [o]) (o :: vis)
    else enqueueOutputs id rest q vis

/-- The `for hypermodel in input_node.out_hypermodels` loop body of phase 2
(lines 146-155): skip blocks none of whose outputs is in `node_to_id`,
otherwise admit via `_add_hypermodel` and enqueue the outputs. -/
def processBlocks (g : Graph) :
    List Nat → List Nat → List Nat → List Nat → List Nat →
    Except NetErr (List Nat × List Nat × List Nat × List Nat)
  | [], q, vis, hms, id => .ok (q, vis, hms, id)
  | b :: rest, q, vis, hms, id =>
    if (blockAt g b).outputs.any (fun o => decide (o ∈ id)) then
      match addHypermodel g b hms id with
      | .error e => .error e
      | .ok (hms2, id2) =>
        match enqueueOutputs id2 (blockAt g b).outputs q vis with
        | (q2, vis2) => processBlocks g rest q2 vis2 hms2 id2
    else processBlocks g rest q vis hms id

/-- The phase-2 BFS loop of `_build_network` (lines 144-155), with fuel. -/
def bfs (g : Graph) :
    Nat → List Nat → List Nat → List Nat → List Nat →
    Except NetErr (List Nat × List Nat)
  | 0, _, _, _, _ => .error .fuelOut
  | _ + 1, [], _, hms, id => .ok (hms, id)
  | fuel + 1, u :: q, vis, hms, id =>
    match processBlocks g (outHypermodels g u) q vis hms id with
    | .error e => .error e
    | .ok (q2, vis2, hms2, id2) => bfs g fuel q2 vis2 hms2 id2

/-- The finalization loop of `_build_network` (lines 156-158): for each
declared output read `output_node.in_hypermodels[0]` — an unguarded index
that raises when the output has no producing block. -/
def finalizeOutputs (g : Graph) : List Nat → Except NetErr (List Nat)
  | [] => .ok []
  | o :: rest =>
    match inHypermodels g o with
    | [] => .error .indexError
    | b :: _ =>
      match finalizeOutputs g rest with
      | .error e => .error e
      | .ok bs => .ok (b :: bs)

/-- DFS fuel sufficient for any well-formed graph: recursion depth is
bounded by the number of distinct nodes. -/
def dfsFuel (g : Graph) : Nat := g.numNodes + 1

/-- BFS fuel sufficient for any well-formed graph: each iteration pops one
queue entry and every enqueue marks a fresh node visited. -/
def bfsFuel (g : Graph) : Nat := g.numNodes + g.inputs.length + 1

/-- The connectivity check of `_build_network` (lines 132-134). -/
def connected (g : Graph) (id : List Nat) : Bool :=
  (g.inputs ++ g.outputs).all (fun n => decide (n ∈ id))

/-- `_build_network` up to (not including) the finalization loop: phase-1
DFS, connectivity check, phase-2 BFS.  Returns `(hypermodels, node_to_id)`. -/
def resolveCore (g : Graph) : Except NetErr (List Nat × List Nat) :=
  match phase1 g (dfsFuel g) [] g.inputs with
  | .error e => .error e
  | .ok id =>
    if connected g id then bfs g (bfsFuel g) g.inputs g.inputs [] id
    else .error .disconnected

/-- The resolved graph produced by a successful `_build_network`:
`node_to_id` in insertion order (id = position), the admitted block order
`self.hypermodels`, and the first producing block of each declared output
(the blocks whose `output_shape` the finalization loop sets).
`self.nodes` (line 130) is the id-sorted key list, i.e. `nodeToId` itself;
`self.hypermodel_to_id` maps each block of `hypermodels` to its position. -/
structure Resolved where
  nodeToId : List Nat
  hypermodels : List Nat
  outBlocks : List Nat
  deriving DecidableEq, Repr

/-- The whole of `_build_network` (lines 124-158). -/
def resolve (g : Graph) : Except NetErr Resolved :=
  match resolveCore g with
  | .error e => .error e
  | .ok (hms, id) =>
    match finalizeOutputs g g.outputs with
    | .error e => .error e
    | .ok obs => .ok ⟨id, hms, obs⟩

/-! ## The `build` orchestration (lines 95-109)

`build` is modeled by the sequence of block invocations it performs and
whether it completes without a lookup `KeyError`: `real_nodes` is the set of
node ids for which a concrete representation has been recorded. -/

/-- Python dict lookup `node_to_id[n]`: position of `n`, if present. -/
def idOf : List Nat → Nat → Option Nat
  | [], _ => none
  | x :: xs, n => if x = n then some 0 else (idOf xs n).map (· + 1)

/-- Look up the ids of all of `ns` (`none` on the first `KeyError`). -/
def idsOf (ids : List Nat) : List Nat → Option (List Nat)
  | [] => some []
  | n :: rest =>
    match idOf ids n, idsOf ids rest with
    | some k, some ks => some (k :: ks)
    | _, _ => none

/-- All of `ns` have an id and their id is recorded in `real`. -/
def lookupAll (ids real : List Nat) (ns : List Nat) : Bool :=
  ns.all (fun n =>
    match idOf ids n with
    | none => false
    | some k => decide (k ∈ real))

/-- The block loop of `build` (lines 100-107): for each block in order,
gather the recorded representations of its inputs (the list comprehension —
a failed lookup raises before the block is invoked), invoke the block, then
record its outputs.  Returns (invocation trace, final `real_nodes`,
completed-without-exception). -/
def runBlocks (g : Graph) (ids : List Nat) : List Nat → List Nat → List Nat × List Nat × Bool
  | real, [] => ([], real, true)
  | real, b :: rest =>
    if lookupAll ids real (blockAt g b).inputs then
      match idsOf ids (blockAt g b).outputs with
      | none => ([b], real, false)
      | some ks =>
        match runBlocks g ids (ks ++ real) rest with
        | (tr, real2, ok) => (b :: tr, real2, ok)
    else ([], real, false)

/-- `build` (lines 95-109): record the declared inputs' representations,
run the blocks in `hypermodels` order, then assemble the model from the
declared outputs' representations.  Result: the block invocation trace and
whether the call completed without a lookup error. -/
def buildTrace (g : Graph) (r : Resolved) : List Nat × Bool :=
  match idsOf r.nodeToId g.inputs with
  | none => ([], false)
  | some ks =>
    match runBlocks g r.nodeToId ks r.hypermodels with
    | (tr, real2, ok) => (tr, ok && lookupAll r.nodeToId real2 g.outputs)

/-! ## Metric and loss inference (lines 197-205) -/

inductive MetricK where
  | accuracy
  | mse
  deriving DecidableEq, Repr

inductive LossK where
  | categoricalCrossentropy
  | meanSquaredError
  deriving DecidableEq, Repr

/-- `_infer_metrics` (lines 197-200). -/
def inferMetrics (g : Graph) (hms : List Nat) : MetricK :=
  if hms.any (fun b => (blockAt g b).isClassificationHead) then .accuracy else .mse

/-- `_infer_loss` (lines 202-205). -/
def inferLoss (g : Graph) (hms : List Nat) : LossK :=
  if hms.any (fun b => (blockAt g b).isClassificationHead) then .categoricalCrossentropy
  else .meanSquaredError

/-! ## `_build_network` as a state transformer (for idempotence)

`_build_network` runs on the `GraphAutoModel` object: it reads only
`self.inputs` / `self.outputs` (part of `Graph`) and reassigns
`self.node_to_id` (line 125) and `self.hypermodels` / `self.hypermodel_to_id`
(lines 137-138) before use, so the prior cache state is never read. -/

structure RState where
  node_to_id : List Nat
  hypermodels : List Nat
  deriving DecidableEq, Repr

/-- `_build_network` as a transformer of the resolver's cached state; the
resets at lines 125 and 137-139 make the prior state dead. -/
def buildNetworkS (g : Graph) (_s : RState) : Except NetErr RState :=
  match resolveCore g with
  | .error e => .error e
  | .ok (hms, id) =>
    match finalizeOutputs g g.outputs with
    | .error e => .error e
    | .ok _ => .ok ⟨id, hms⟩

/-! ## Specification-side predicates -/

/-- The edge relation of the declared topology: `x → y` iff some block
consumes `x` and produces `y`. -/
def Edge (g : Graph) (x y : Nat) : Prop :=
  ∃ b ∈ g.blocks, x ∈ b.inputs ∧ y ∈ b.outputs

instance (g : Graph) (x y : Nat) : Decidable (Edge g x y) := by
  unfold Edge; infer_instance

/-- Forward reachability along block edges. -/
def Reaches (g : Graph) : Nat → Nat → Prop := Relation.ReflTransGen (Edge g)

/-- `v` is reachable from some declared input. -/
def FromInput (g : Graph) (v : Nat) : Prop := ∃ i ∈ g.inputs, Reaches g i v

/-- `v` lies on a path to some declared output. -/
def LeadsOut (g : Graph) (v : Nat) : Prop := ∃ o ∈ g.outputs, Reaches g v o

/-- `v` lies on a path from a declared input to a declared output. -/
def OnPath (g : Graph) (v : Nat) : Prop := FromInput g v ∧ LeadsOut g v

/-- Some node reachable from a declared input lies on a directed cycle. -/
def HasReachableCycle (g : Graph) : Prop :=
  ∃ i ∈ g.inputs, ∃ v, Reaches g i v ∧ Relation.TransGen (Edge g) v v

/-- All node references of the topology lie in the arena. -/
def Wf (g : Graph) : Prop :=
  (∀ b ∈ g.blocks, (∀ n ∈ b.inputs, n < g.numNodes) ∧ ∀ n ∈ b.outputs, n < g.numNodes) ∧
  (∀ n ∈ g.inputs, n < g.numNodes) ∧ (∀ n ∈ g.outputs, n < g.numNodes)

instance (g : Graph) : Decidable (Wf g) := by
  unfold Wf; infer_instance

def nthB (l : List Nat) (i : Nat) : Nat := l.getD i 0

/-- The block-order property claimed by C1: no block appears before a block
producing one of its input nodes — for every position `i`, every input node
`n` of the block there, and every block `b` of the graph having `n` among
its outputs, `b` occurs strictly earlier in the order. -/
def ClaimedOrder (g : Graph) (hms : List Nat) : Prop :=
  ∀ i, i < hms.length → ∀ n ∈ (blockAt g (nthB hms i)).inputs,
    ∀ b, b < g.blocks.length → n ∈ (blockAt g b).outputs →
      ∃ j, j < i ∧ nthB hms j = b

instance (g : Graph) (hms : List Nat) : Decidable (ClaimedOrder g hms) := by
  unfold ClaimedOrder; infer_instance

/-- The block-order property the code actually guarantees: every admitted
block has at least one input node that is a declared graph input or an
output node of a strictly earlier block of the order. -/
def WeakOrder (g : Graph) (hms : List Nat) : Prop :=
  ∀ i, i < hms.length → ∃ n ∈ (blockAt g (nthB hms i)).inputs,
    n ∈ g.inputs ∨ ∃ j, j < i ∧ n ∈ (blockAt g (nthB hms j)).outputs

instance (g : Graph) (hms : List Nat) : Decidable (WeakOrder g hms) := by
  unfold WeakOrder; infer_instance

/-! ## Concrete topologies used as witnesses and counterexamples -/

/-- Scenario A: one input node 0, one block, one output node 1. -/
def gA : Graph := ⟨2, [⟨"b0", [0], [1], false⟩], [0], [1]⟩

/-- Input 0; block `B` consumes 0 and 1 producing output 2; block `P`
consumes 0 producing 1.  Declared before `P`, `B` is admitted first even
though `P` produces its input 1. -/
def gBP : Graph := ⟨3, [⟨"B", [0, 1], [2], false⟩, ⟨"P", [0], [1], false⟩], [0], [2]⟩

/-- Input 0; multi-output block `A` produces declared output 1 and dangling
node 2. -/
def gMulti : Graph := ⟨3, [⟨"A", [0], [1, 2], false⟩], [0], [1]⟩

/-- Input 0 → block `A` → node 1; block `B` maps 1 to itself: a reachable
one-node cycle. -/
def gCyc : Graph := ⟨2, [⟨"A", [0], [1], false⟩, ⟨"B", [1], [1], false⟩], [0], [1]⟩

/-- Node 0 declared both input and output, no blocks: connectivity passes
but the output has no producing block. -/
def gSelf : Graph := ⟨1, [], [0], [0]⟩

/-- Two nodes, no blocks: output 1 unreachable from input 0. -/
def gDisc : Graph := ⟨2, [], [0], [1]⟩

/-- Input 0; `A : 0 → {1, 2}` and `R : 0 → {1, 3}` lead to declared output
1; classification block `Q : 2 → 3` is admitted (3 already has an id via
`R`) yet no path from its output 3 reaches output 1. -/
def gC9 : Graph :=
  ⟨4, [⟨"A", [0], [1, 2], false⟩, ⟨"R", [0], [1, 3], false⟩, ⟨"Q", [2], [3], true⟩], [0], [1]⟩

/-! ## Generic helper lemmas -/

theorem getD_eq_get {α : Type} (d : α) :
    ∀ (l : List α) (i : Nat) (h : i < l.length), l.getD i d = l.get ⟨i, h⟩
  | _ :: _, 0, _ => rfl
  | _ :: l, i + 1, h => getD_eq_get d l i (Nat.lt_of_succ_lt_succ h)

theorem mem_addNode {x n : Nat} {id : List Nat} : x ∈ addNode id n ↔ x ∈ id ∨ x = n := by
  unfold addNode
  by_cases h : n ∈ id
  · rw [if_pos h]
    constructor
    · exact Or.inl
    · rintro (h1 | rfl)
      · exact h1
      · exact h
  · rw [if_neg h]
    simp [List.mem_append]

theorem mem_addNodes {x : Nat} : ∀ (l id : List Nat), x ∈ addNodes id l ↔ x ∈ id ∨ x ∈ l := by
  intro l
  induction l with
  | nil => simp [addNodes]
  | cons n rest ih =>
    intro id
    rw [addNodes, ih, mem_addNode]
    simp [or_assoc, or_comm, or_left_comm]

theorem mem_catOutputs {g : Graph} {x : Nat} :
    ∀ l : List Nat, x ∈ catOutputs g l ↔ ∃ b ∈ l, x ∈ (blockAt g b).outputs := by
  intro l
  induction l with
  | nil => simp [catOutputs]
  | cons b rest ih => simp [catOutputs, ih]

theorem mem_outHypermodels {g : Graph} {n b : Nat} :
    b ∈ outHypermodels g n ↔ b < g.blocks.length ∧ n ∈ (blockAt g b).inputs := by
  simp [outHypermodels, List.mem_filter, List.mem_range]

theorem mem_inHypermodels {g : Graph} {n b : Nat} :
    b ∈ inHypermodels g n ↔ b < g.blocks.length ∧ n ∈ (blockAt g b).outputs := by
  simp [inHypermodels, List.mem_filter, List.mem_range]

theorem edge_iff_index {g : Graph} {x y : Nat} :
    Edge g x y ↔ ∃ i, i < g.blocks.length ∧ x ∈ (blockAt g i).inputs ∧
      y ∈ (blockAt g i).outputs := by
  constructor
  · rintro ⟨blk, hmem, hx, hy⟩
    rcases List.mem_iff_get.mp hmem with ⟨⟨i, hi⟩, rfl⟩
    exact ⟨i, hi, by rw [blockAt, getD_eq_get]; exact hx, by rw [blockAt, getD_eq_get]; exact hy⟩
  · rintro ⟨i, hi, hx, hy⟩
    refine ⟨blockAt g i, ?_, hx, hy⟩
    rw [blockAt, getD_eq_get defaultBlock g.blocks i hi]
    exact List.get_mem _ _ _

theorem mem_childrenOf {g : Graph} {n c : Nat} : c ∈ childrenOf g n ↔ Edge g n c := by
  rw [childrenOf, mem_catOutputs, edge_iff_index]
  constructor
  · rintro ⟨b, hb, hc⟩
    rcases mem_outHypermodels.mp hb with ⟨hlt, hin⟩
    exact ⟨b, hlt, hin, hc⟩
  · rintro ⟨b, hlt, hin, hc⟩
    exact ⟨b, mem_outHypermodels.mpr ⟨hlt, hin⟩, hc⟩

theorem edge_lt {g : Graph} (hwf : Wf g) {x y : Nat} (h : Edge g x y) :
    x < g.numNodes ∧ y < g.numNodes := by
  rcases h with ⟨blk, hmem, hx, hy⟩
  exact ⟨(hwf.1 blk hmem).1 x hx, (hwf.1 blk hmem).2 y hy⟩

/-- A set closed under the edge relation contains everything reachable from
its members. -/
theorem reach_closed {g : Graph} {S : Nat → Prop}
    (hS : ∀ v, S v → ∀ c, Edge g v c → S c) {a b : Nat}
    (ha : S a) (hab : Reaches g a b) : S b := by
  induction hab with
  | refl => exact ha
  | tail _ h ih => exact hS _ ih _ h

/-- A rank function strictly increasing along edges rules out cycles. -/
theorem no_cycle_of_rank {g : Graph} {f : Nat → Nat}
    (hf : ∀ x y, Edge g x y → f x < f y) : ∀ v, ¬ Relation.TransGen (Edge g) v v := by
  have key : ∀ a b, Relation.TransGen (Edge g) a b → f a < f b := by
    intro a b h
    induction h with
    | single h1 => exact hf _ _ h1
    | tail _ h1 ih => exact lt_trans ih (hf _ _ h1)
  intro v hv
  exact lt_irrefl _ (key v v hv)

/-- A node with no outgoing edges reaches only itself. -/
theorem reaches_self_of_no_out {g : Graph} {v : Nat} (h : ∀ c, ¬ Edge g v c) {w : Nat}
    (hw : Reaches g v w) : w = v := by
  rcases Relation.ReflTransGen.cases_head hw with h1 | ⟨c, hc, _⟩
  · exact h1.symm
  · exact absurd hc (h c)

/-- The number of arena nodes not yet visited: the DFS/BFS termination
measure. -/
def uc (g : Graph) (vis : List Nat) : Nat :=
  ((List.range g.numNodes).filter (fun x => !(decide (x ∈ vis)))).length

theorem filter_length_mono {α : Type} {p q : α → Bool}
    (h : ∀ a, q a = true → p a = true) :
    ∀ l : List α, (l.filter q).length ≤ (l.filter p).length
  | [] => Nat.le_refl _
  | a :: l => by
    have ih := filter_length_mono h l
    by_cases hq : q a = true
    · rw [List.filter_cons_of_pos hq, List.filter_cons_of_pos (h a hq)]
      exact Nat.succ_le_succ ih
    · rw [List.filter_cons_of_neg (by simpa using hq)]
      by_cases hp : p a = true
      · rw [List.filter_cons_of_pos hp]
        exact Nat.le_succ_of_le ih
      · rw [List.filter_cons_of_neg (by simpa using hp)]
        exact ih

theorem uc_mono {g : Graph} {vis vis' : List Nat} (h : ∀ x ∈ vis, x ∈ vis') :
    uc g vis' ≤ uc g vis := by
  refine filter_length_mono ?_ _
  intro a ha
  simp only [Bool.not_eq_true', decide_eq_false_iff_not] at ha ⊢
  exact fun hmem => ha (h a hmem)

theorem filter_length_cons_aux {n : Nat} {vis : List Nat} (hnv : n ∉ vis) :
    ∀ l : List Nat, l.Nodup → n ∈ l →
      ((l.filter (fun x => !(decide (x ∈ n :: vis)))).length) + 1 =
      (l.filter (fun x => !(decide (x ∈ vis)))).length := by
  intro l
  induction l with
  | nil => simp
  | cons a l ih =>
    intro hnd hm
    rcases List.mem_cons.mp hm with rfl | hm'
    · have hnotin : n ∉ l := (List.nodup_cons.mp hnd).1
      rw [List.filter_cons_of_neg (by simp), List.filter_cons_of_pos (by simpa using hnv)]
      have hcong : l.filter (fun x => !(decide (x ∈ n :: vis))) =
          l.filter (fun x => !(decide (x ∈ vis))) := by
        refine List.filter_congr ?_
        intro x hx
        have hxn : x ≠ n := fun h => hnotin (h ▸ hx)
        simp [List.mem_cons, hxn]
      rw [hcong]
      simp
    · have han : a ≠ n := by
        rintro rfl
        exact (List.nodup_cons.mp hnd).1 hm'
      have ih' := ih (List.nodup_cons.mp hnd).2 hm'
      by_cases hav : a ∈ vis
      · rw [List.filter_cons_of_neg (by simp [hav]), List.filter_cons_of_neg (by simp [hav])]
        exact ih'
      · rw [List.filter_cons_of_pos (by simp [List.mem_cons, hav, han]),
          List.filter_cons_of_pos (by simpa using hav)]
        simp only [List.length_cons]
        omega

theorem uc_cons {g : Graph} {n : Nat} {vis : List Nat} (hlt : n < g.numNodes)
    (hnv : n ∉ vis) : uc g (n :: vis) + 1 = uc g vis :=
  filter_length_cons_aux hnv (List.range g.numNodes) (List.nodup_range _)
    (List.mem_range.mpr hlt)

theorem uc_nil (g : Graph) : uc g [] = g.numNodes := by
  simp [uc]

theorem uc_le (g : Graph) (vis : List Nat) : uc g vis ≤ g.numNodes := by
  calc ((List.range g.numNodes).filter _).length ≤ (List.range g.numNodes).length :=
        List.length_filter_le _ _
    _ = g.numNodes := List.length_range _

theorem nthB_append_lt {l l2 : List Nat} : ∀ {i : Nat}, i < l.length →
    nthB (l ++ l2) i = nthB l i := by
  induction l with
  | nil => intro i h; exact absurd h (Nat.not_lt_zero _)
  | cons a l ih =>
    intro i h
    cases i with
    | zero => rfl
    | succ j => exact ih (Nat.lt_of_succ_lt_succ h)

theorem nthB_append_len {l : List Nat} {b : Nat} : nthB (l ++ [b]) l.length = b := by
  induction l with
  | nil => rfl
  | cons a l ih => exact ih

theorem mem_iff_nthB {x : Nat} : ∀ {l : List Nat}, x ∈ l ↔ ∃ j, j < l.length ∧ nthB l j = x := by
  intro l
  induction l with
  | nil => simp [nthB]
  | cons a l ih =>
    simp only [List.mem_cons, ih, List.length_cons]
    constructor
    · rintro (rfl | ⟨j, hj, rfl⟩)
      · exact ⟨0, Nat.succ_pos _, rfl⟩
      · exact ⟨j + 1, Nat.succ_lt_succ hj, rfl⟩
    · rintro ⟨j, hj, rfl⟩
      cases j with
      | zero => exact Or.inl rfl
      | succ j => exact Or.inr ⟨j, Nat.lt_of_succ_lt_succ hj, rfl⟩

/-! ## DFS unfolding lemmas -/

theorem searchNetwork_succ (g : Graph) (fuel n : Nat) (id vis stk : List Nat) :
    searchNetwork g (fuel + 1) n id vis stk =
    match runChildren g (searchNetwork g fuel) (childrenOf g n) id (n :: vis) (n :: stk)
        (decide (n ∈ g.outputs)) with
    | .error e => .error e
    | .ok (id2, vis2, r) => .ok ((if r then addNode id2 n else id2), vis2) := rfl

theorem runChildren_cons (g : Graph)
    (recur : Nat → List Nat → List Nat → List Nat → Except NetErr (List Nat × List Nat))
    (c : Nat) (rest id vis stk : List Nat) (r : Bool) :
    runChildren g recur (c :: rest) id vis stk r =
    if c ∈ stk then .error .cycle
    else
      match (if c ∈ vis then Except.ok (id, vis) else recur c id vis stk :
          Except NetErr (List Nat × List Nat)) with
      | .error e => .error e
      | .ok (id2, vis2) => runChildren g recur rest id2 vis2 stk (r || decide (c ∈ id2)) := rfl

/-! ## DFS pass 1: monotonicity of the visited set and of `node_to_id` -/

theorem rcMono (g : Graph)
    (recur : Nat → List Nat → List Nat → List Nat → Except NetErr (List Nat × List Nat))
    (hrec : ∀ n id vis stk id' vis', recur n id vis stk = .ok (id', vis') →
      (∀ x ∈ vis, x ∈ vis') ∧ (∀ x ∈ id, x ∈ id') ∧ n ∈ vis' ∧
      (n ∉ vis → ∀ x ∈ id', x ∈ id ∨ (x ∈ vis' ∧ x ∉ vis))) :
    ∀ (cs id vis stk : List Nat) (r : Bool) (id' vis' : List Nat) (r' : Bool),
      runChildren g recur cs id vis stk r = .ok (id', vis', r') →
      (∀ x ∈ vis, x ∈ vis') ∧ (∀ x ∈ id, x ∈ id') ∧
      (∀ x ∈ id', x ∈ id ∨ (x ∈ vis' ∧ x ∉ vis)) ∧
      (r = true → r' = true) ∧
      (r' = true → r = true ∨ ∃ c ∈ cs, c ∈ id') := by
  intro cs
  induction cs with
  | nil =>
    intro id mvis stk r id' vis' r' hres
    simp only [runChildren, Except.ok.injEq, Prod.mk.injEq] at hres
    obtain ⟨rfl, rfl, rfl⟩ := hres
    exact ⟨fun x h => h, fun x h => h, fun x h => Or.inl h, fun h => h, fun h => Or.inl h⟩
  | cons c rest ih =>
    intro id vis stk r id' vis' r' hres
    rw [runChildren_cons] at hres
    by_cases hstk : c ∈ stk
    · rw [if_pos hstk] at hres; cases hres
    rw [if_neg hstk] at hres
    by_cases hvis : c ∈ vis
    · rw [if_pos hvis] at hres
      obtain ⟨m1, m2, m3, m4, m5⟩ := ih _ _ _ _ _ _ _ hres
      refine ⟨m1, m2, m3, fun hr => m4 (by simp [hr]), fun hr' => ?_⟩
      rcases m5 hr' with hor | ⟨c', hc', hid⟩
      · rcases Bool.or_eq_true_iff.mp hor with h | h
        · exact Or.inl h
        · exact Or.inr ⟨c, List.mem_cons_self _ _, m2 c (of_decide_eq_true h)⟩
      · exact Or.inr ⟨c', List.mem_cons_of_mem _ hc', hid⟩
    · rw [if_neg hvis] at hres
      cases hrec2 : recur c id vis stk with
      | error e => rw [hrec2] at hres; cases hres
      | ok t =>
        obtain ⟨id2, vis2⟩ := t
        rw [hrec2] at hres
        obtain ⟨b1, b2, b3, b4⟩ := hrec _ _ _ _ _ _ hrec2
        obtain ⟨m1, m2, m3, m4, m5⟩ := ih _ _ _ _ _ _ _ hres
        refine ⟨fun x hx => m1 x (b1 x hx), fun x hx => m2 x (b2 x hx), ?_,
          fun hr => m4 (by simp [hr]), fun hr' => ?_⟩
        · intro x hx
          rcases m3 x hx with hid2 | ⟨hv', hnv2⟩
          · rcases b4 hvis x hid2 with hid | ⟨hv2, hnv⟩
            · exact Or.inl hid
            · exact Or.inr ⟨m1 x hv2, hnv⟩
          · exact Or.inr ⟨hv', fun hv => hnv2 (b1 x hv)⟩
        · rcases m5 hr' with hor | ⟨c', hc', hid⟩
          · rcases Bool.or_eq_true_iff.mp hor with h | h
            · exact Or.inl h
            · exact Or.inr ⟨c, List.mem_cons_self _ _, m2 c (of_decide_eq_true h)⟩
          · exact Or.inr ⟨c', List.mem_cons_of_mem _ hc', hid⟩

theorem snMono (g : Graph) : ∀ (fuel n : Nat) (id vis stk id' vis' : List Nat),
    searchNetwork g fuel n id vis stk = .ok (id', vis') →
    (∀ x ∈ vis, x ∈ vis') ∧ (∀ x ∈ id, x ∈ id') ∧ n ∈ vis' ∧
    (n ∉ vis → ∀ x ∈ id', x ∈ id ∨ (x ∈ vis' ∧ x ∉ vis)) := by
  intro fuel
  induction fuel with
  | zero => intro n id vis stk id' vis' hres; cases hres
  | succ fuel ih =>
    intro n id vis stk id' vis' hres
    rw [searchNetwork_succ] at hres
    cases hrc : runChildren g (searchNetwork g fuel) (childrenOf g n) id (n :: vis) (n :: stk)
        (decide (n ∈ g.outputs)) with
    | error e => rw [hrc] at hres; cases hres
    | ok t =>
      obtain ⟨id2, vis2, r⟩ := t
      rw [hrc] at hres
      injection hres with h2
      obtain ⟨m1, m2, m3, m4, m5⟩ := rcMono g (searchNetwork g fuel) ih _ _ _ _ _ _ _ _ hrc
      have hidf : (if r then addNode id2 n else id2) = id' := congrArg Prod.fst h2
      have hvisf : vis2 = vis' := congrArg Prod.snd h2
      subst hidf hvisf
      refine ⟨fun x hx => m1 x (List.mem_cons_of_mem _ hx),
        fun x hx => ?_, m1 n (List.mem_cons_self _ _), fun hnv x hx => ?_⟩
      · cases r
        · exact m2 x hx
        · exact mem_addNode.mpr (Or.inl (m2 x hx))
      · have hcase : x ∈ id2 ∨ x = n := by
          cases r
          · exact Or.inl hx
          · exact mem_addNode.mp hx
        rcases hcase with hid2 | rfl
        · rcases m3 x hid2 with hid | ⟨hv2, hnv2⟩
          · exact Or.inl hid
          · exact Or.inr ⟨hv2, fun hv => hnv2 (List.mem_cons_of_mem _ hv)⟩
        · exact Or.inr ⟨m1 x (List.mem_cons_self _ _), hnv⟩

/-! ## DFS pass 2: the only errors are `cycle` and `fuelOut` -/

theorem rcErr (g : Graph)
    (recur : Nat → List Nat → List Nat → List Nat → Except NetErr (List Nat × List Nat))
    (hrec : ∀ n id vis stk e, recur n id vis stk = .error e → e = .cycle ∨ e = .fuelOut) :
    ∀ (cs id vis stk : List Nat) (r : Bool) (e : NetErr),
      runChildren g recur cs id vis stk r = .error e → e = .cycle ∨ e = .fuelOut := by
  intro cs
  induction cs with
  | nil => intro id vis stk r e hres; cases hres
  | cons c rest ih =>
    intro id vis stk r e hres
    rw [runChildren_cons] at hres
    by_cases hstk : c ∈ stk
    · rw [if_pos hstk] at hres
      injection hres with h
      exact Or.inl h.symm
    rw [if_neg hstk] at hres
    by_cases hvis : c ∈ vis
    · rw [if_pos hvis] at hres
      exact ih _ _ _ _ _ hres
    · rw [if_neg hvis] at hres
      cases hrec2 : recur c id vis stk with
      | error e2 =>
        rw [hrec2] at hres
        injection hres with h
        exact h ▸ hrec _ _ _ _ _ hrec2
      | ok t =>
        obtain ⟨id2, vis2⟩ := t
        rw [hrec2] at hres
        exact ih _ _ _ _ _ hres

theorem snErr (g : Graph) : ∀ (fuel n : Nat) (id vis stk : List Nat) (e : NetErr),
    searchNetwork g fuel n id vis stk = .error e → e = .cycle ∨ e = .fuelOut := by
  intro fuel
  induction fuel with
  | zero =>
    intro n id vis stk e hres
    injection hres with h
    exact Or.inr h.symm
  | succ fuel ih =>
    intro n id vis stk e hres
    rw [searchNetwork_succ] at hres
    cases hrc : runChildren g (searchNetwork g fuel) (childrenOf g n) id (n :: vis) (n :: stk)
        (decide (n ∈ g.outputs)) with
    | error e2 =>
      rw [hrc] at hres
      injection hres with h
      exact h ▸ rcErr g (searchNetwork g fuel) ih _ _ _ _ _ _ hrc
    | ok t =>
      obtain ⟨id2, vis2, r⟩ := t
      rw [hrc] at hres
      cases hres

/-! ## DFS pass 3: fuel sufficiency -/

theorem rcFuel (g : Graph) (fuel : Nat)
    (recur : Nat → List Nat → List Nat → List Nat → Except NetErr (List Nat × List Nat))
    (hmono : ∀ n id vis stk id' vis', recur n id vis stk = .ok (id', vis') →
      ∀ x ∈ vis, x ∈ vis')
    (hfuel : ∀ n id vis stk, n < g.numNodes → n ∉ vis → uc g vis < fuel →
      recur n id vis stk ≠ .error .fuelOut) :
    ∀ (cs id vis stk : List Nat) (r : Bool),
      (∀ c ∈ cs, c < g.numNodes) → uc g vis < fuel →
      runChildren g recur cs id vis stk r ≠ .error .fuelOut := by
  intro cs
  induction cs with
  | nil => intro id vis stk r _ _ hres; cases hres
  | cons c rest ih =>
    intro id vis stk r hcs huc hres
    rw [runChildren_cons] at hres
    by_cases hstk : c ∈ stk
    · rw [if_pos hstk] at hres
      injection hres with h
      cases h
    rw [if_neg hstk] at hres
    by_cases hvis : c ∈ vis
    · rw [if_pos hvis] at hres
      exact ih _ _ _ _ (fun x hx => hcs x (List.mem_cons_of_mem _ hx)) huc hres
    · rw [if_neg hvis] at hres
      cases hrec2 : recur c id vis stk with
      | error e =>
        rw [hrec2] at hres
        injection hres with h
        exact hfuel c id vis stk (hcs c (List.mem_cons_self _ _)) hvis huc (h ▸ hrec2)
      | ok t =>
        obtain ⟨id2, vis2⟩ := t
        rw [hrec2] at hres
        have hsub := hmono _ _ _ _ _ _ hrec2
        have huc2 : uc g vis2 < fuel := lt_of_le_of_lt (uc_mono hsub) huc
        exact ih _ _ _ _ (fun x hx => hcs x (List.mem_cons_of_mem _ hx)) huc2 hres

theorem snFuel (g : Graph) (hwf : Wf g) : ∀ (fuel n : Nat) (id vis stk : List Nat),
    n < g.numNodes → n ∉ vis → uc g vis < fuel →
    searchNetwork g fuel n id vis stk ≠ .error .fuelOut := by
  intro fuel
  induction fuel with
  | zero => intro n id vis stk _ _ h; exact absurd h (Nat.not_lt_zero _)
  | succ fuel ih =>
    intro n id vis stk hn hnv hfl hres
    rw [searchNetwork_succ] at hres
    cases hrc : runChildren g (searchNetwork g fuel) (childrenOf g n) id (n :: vis) (n :: stk)
        (decide (n ∈ g.outputs)) with
    | error e =>
      rw [hrc] at hres
      injection hres with he
      subst he
      have hchild : ∀ c ∈ childrenOf g n, c < g.numNodes := fun c hc =>
        (edge_lt hwf (mem_childrenOf.mp hc)).2
      have huc : uc g (n :: vis) < fuel := by
        have := uc_cons (g := g) hn hnv
        omega
      exact rcFuel g fuel (searchNetwork g fuel)
        (fun n' id1 vis1 stk1 id'' vis'' h => (snMono g fuel n' id1 vis1 stk1 id'' vis'' h).1)
        (fun n' id1 vis1 stk1 hn' hnv' hf => ih n' id1 vis1 stk1 hn' hnv' hf)
        _ _ _ _ _ hchild huc hrc
    | ok t =>
      obtain ⟨id2, vis2, r⟩ := t
      rw [hrc] at hres
      cases hres

/-! ## DFS pass 4: the master invariant

`DfsInv g id vis stk` holds between recursive calls of `_search_network`
within one top-level traversal: every *finished* node (visited and no
longer on the stack) has all its children finished, lies on no cycle, and
is recorded in `node_to_id` whenever it leads to a declared output.
`IdSound` states that `node_to_id` holds only nodes on input-output paths
(true throughout phase 1). -/

def DfsInv (g : Graph) (id vis stk : List Nat) : Prop :=
  (∀ v ∈ vis, v ∉ stk → ∀ c, Edge g v c → c ∈ vis ∧ c ∉ stk) ∧
  (∀ v ∈ vis, v ∉ stk → ¬ Relation.TransGen (Edge g) v v) ∧
  (∀ v ∈ vis, v ∉ stk → LeadsOut g v → v ∈ id)

def IdSound (g : Graph) (id : List Nat) : Prop :=
  ∀ v ∈ id, FromInput g v ∧ LeadsOut g v

theorem inv_push {g : Graph} {id vis stk : List Nat} {n : Nat} (hnv : n ∉ vis)
    (hInv : DfsInv g id vis stk) : DfsInv g id (n :: vis) (n :: stk) := by
  obtain ⟨h1, h2, h3⟩ := hInv
  refine ⟨?_, ?_, ?_⟩
  · intro v hv hvs c hc
    rcases List.mem_cons.mp hv with rfl | hv'
    · exact absurd (List.mem_cons_self _ _) hvs
    · have hvstk : v ∉ stk := fun h => hvs (List.mem_cons_of_mem _ h)
      obtain ⟨hcv, hcs⟩ := h1 v hv' hvstk c hc
      have hcn : c ≠ n := fun h => hnv (h ▸ hcv)
      exact ⟨List.mem_cons_of_mem _ hcv, by simp [List.mem_cons, hcn, hcs]⟩
  · intro v hv hvs
    rcases List.mem_cons.mp hv with rfl | hv'
    · exact absurd (List.mem_cons_self _ _) hvs
    · exact h2 v hv' (fun h => hvs (List.mem_cons_of_mem _ h))
  · intro v hv hvs hl
    rcases List.mem_cons.mp hv with rfl | hv'
    · exact absurd (List.mem_cons_self _ _) hvs
    · exact h3 v hv' (fun h => hvs (List.mem_cons_of_mem _ h)) hl

theorem rcMaster (g : Graph)
    (recur : Nat → List Nat → List Nat → List Nat → Except NetErr (List Nat × List Nat))
    (hrec : ∀ (n : Nat) (id vis stk id' vis' : List Nat),
      n ∉ vis → n ∉ stk → FromInput g n → DfsInv g id vis stk → IdSound g id →
      recur n id vis stk = .ok (id', vis') →
      (∀ x ∈ vis, x ∈ vis') ∧ n ∈ vis' ∧ (∀ x ∈ id, x ∈ id') ∧
      (∀ x ∈ id', x ∈ id ∨ (x ∈ vis' ∧ x ∉ vis)) ∧
      DfsInv g id' vis' stk ∧ IdSound g id') :
    ∀ (cs id vis stk : List Nat) (r : Bool) (id' vis' : List Nat) (r' : Bool),
      (∀ c ∈ cs, FromInput g c) → DfsInv g id vis stk → IdSound g id →
      runChildren g recur cs id vis stk r = .ok (id', vis', r') →
      (∀ x ∈ vis, x ∈ vis') ∧ (∀ x ∈ id, x ∈ id') ∧
      (∀ x ∈ id', x ∈ id ∨ (x ∈ vis' ∧ x ∉ vis)) ∧
      DfsInv g id' vis' stk ∧ IdSound g id' ∧
      (∀ c ∈ cs, c ∈ vis' ∧ c ∉ stk) ∧
      (r = true → r' = true) ∧
      (r' = true → r = true ∨ ∃ c ∈ cs, c ∈ id') ∧
      (∀ c ∈ cs, c ∈ id' → r' = true) := by
  intro cs
  induction cs with
  | nil =>
    intro id vis stk r id' vis' r' _ hInv hSound hres
    simp only [runChildren, Except.ok.injEq, Prod.mk.injEq] at hres
    obtain ⟨rfl, rfl, rfl⟩ := hres
    exact ⟨fun x h => h, fun x h => h, fun x h => Or.inl h, hInv, hSound,
      fun c hc => absurd hc (List.not_mem_nil _), fun h => h, fun h => Or.inl h,
      fun c hc => absurd hc (List.not_mem_nil _)⟩
  | cons c rest ih =>
    intro id vis stk r id' vis' r' hcs hInv hSound hres
    rw [runChildren_cons] at hres
    by_cases hstk : c ∈ stk
    · rw [if_pos hstk] at hres; cases hres
    rw [if_neg hstk] at hres
    by_cases hvis : c ∈ vis
    · rw [if_pos hvis] at hres
      obtain ⟨m1, m2, m3, mInv, mSound, m7, m8, m9, m10⟩ :=
        ih _ _ _ _ _ _ _ (fun x hx => hcs x (List.mem_cons_of_mem _ hx)) hInv hSound hres
      refine ⟨m1, m2, m3, mInv, mSound, ?_, fun hr => m8 (by simp [hr]), ?_, ?_⟩
      · intro c' hc'
        rcases List.mem_cons.mp hc' with rfl | hc''
        · exact ⟨m1 c' hvis, hstk⟩
        · exact m7 c' hc''
      · intro hr'
        rcases m9 hr' with hor | ⟨c', hc', hid⟩
        · rcases Bool.or_eq_true_iff.mp hor with h | h
          · exact Or.inl h
          · exact Or.inr ⟨c, List.mem_cons_self _ _, m2 c (of_decide_eq_true h)⟩
        · exact Or.inr ⟨c', List.mem_cons_of_mem _ hc', hid⟩
      · intro c' hc' hcid
        rcases List.mem_cons.mp hc' with rfl | hc''
        · rcases m3 c' hcid with hcid0 | ⟨_, hnv⟩
          · exact m8 (by simp [hcid0])
          · exact absurd hvis hnv
        · exact m10 c' hc'' hcid
    · rw [if_neg hvis] at hres
      cases hrec2 : recur c id vis stk with
      | error e => rw [hrec2] at hres; cases hres
      | ok t =>
        obtain ⟨id2, vis2⟩ := t
        rw [hrec2] at hres
        obtain ⟨b1, b2, b3, b4, b5, b6⟩ :=
          hrec c id vis stk id2 vis2 hvis hstk (hcs c (List.mem_cons_self _ _)) hInv hSound hrec2
        obtain ⟨m1, m2, m3, mInv, mSound, m7, m8, m9, m10⟩ :=
          ih _ _ _ _ _ _ _ (fun x hx => hcs x (List.mem_cons_of_mem _ hx)) b5 b6 hres
        refine ⟨fun x hx => m1 x (b1 x hx), fun x hx => m2 x (b3 x hx), ?_, mInv, mSound,
          ?_, fun hr => m8 (by simp [hr]), ?_, ?_⟩
        · intro x hx
          rcases m3 x hx with hid2 | ⟨hv', hnv2⟩
          · rcases b4 x hid2 with hid | ⟨hv2, hnvx⟩
            · exact Or.inl hid
            · exact Or.inr ⟨m1 x hv2, hnvx⟩
          · exact Or.inr ⟨hv', fun hv => hnv2 (b1 x hv)⟩
        · intro c' hc'
          rcases List.mem_cons.mp hc' with rfl | hc''
          · exact ⟨m1 c' b2, hstk⟩
          · exact m7 c' hc''
        · intro hr'
          rcases m9 hr' with hor | ⟨c', hc', hid⟩
          · rcases Bool.or_eq_true_iff.mp hor with h | h
            · exact Or.inl h
            · exact Or.inr ⟨c, List.mem_cons_self _ _, m2 c (of_decide_eq_true h)⟩
          · exact Or.inr ⟨c', List.mem_cons_of_mem _ hc', hid⟩
        · intro c' hc' hcid
          rcases List.mem_cons.mp hc' with rfl | hc''
          · rcases m3 c' hcid with hcid2 | ⟨_, hnv2⟩
            · exact m8 (by simp [hcid2])
            · exact absurd b2 hnv2
          · exact m10 c' hc'' hcid

theorem snMaster (g : Graph) : ∀ (fuel n : Nat) (id vis stk id' vis' : List Nat),
    n ∉ vis → n ∉ stk → FromInput g n → DfsInv g id vis stk → IdSound g id →
    searchNetwork g fuel n id vis stk = .ok (id', vis') →
    (∀ x ∈ vis, x ∈ vis') ∧ n ∈ vis' ∧ (∀ x ∈ id, x ∈ id') ∧
    (∀ x ∈ id', x ∈ id ∨ (x ∈ vis' ∧ x ∉ vis)) ∧
    DfsInv g id' vis' stk ∧ IdSound g id' := by
  intro fuel
  induction fuel with
  | zero => intro n id vis stk id' vis' _ _ _ _ _ hres; cases hres
  | succ fuel ih =>
    intro n id vis stk id' vis' hnv hns hfi hInv hSound hres
    rw [searchNetwork_succ] at hres
    cases hrc : runChildren g (searchNetwork g fuel) (childrenOf g n) id (n :: vis) (n :: stk)
        (decide (n ∈ g.outputs)) with
    | error e => rw [hrc] at hres; cases hres
    | ok t =>
      obtain ⟨id2, vis2, r⟩ := t
      rw [hrc] at hres
      injection hres with h2
      have hidf : (if r then addNode id2 n else id2) = id' := congrArg Prod.fst h2
      have hvisf : vis2 = vis' := congrArg Prod.snd h2
      subst hidf hvisf
      have hcs : ∀ c ∈ childrenOf g n, FromInput g c := by
        intro c hc
        obtain ⟨i, hi, hri⟩ := hfi
        exact ⟨i, hi, hri.tail (mem_childrenOf.mp hc)⟩
      obtain ⟨m1, m2, m3, mInv2, mSound2, m7, m8, m9, m10⟩ :=
        rcMaster g (searchNetwork g fuel) ih _ _ _ _ _ _ _ _ hcs (inv_push hnv hInv) hSound hrc
      have hnocyc : ¬ Relation.TransGen (Edge g) n n := by
        intro htg
        have hdecomp : ∃ c, Edge g n c ∧ Relation.ReflTransGen (Edge g) c n :=
          Relation.TransGen.head'_iff.mp htg
        obtain ⟨c, hnc, hcn⟩ := hdecomp
        have hcS := m7 c (mem_childrenOf.mpr hnc)
        have hclosed : ∀ v, (v ∈ vis2 ∧ v ∉ n :: stk) → ∀ c', Edge g v c' →
            (c' ∈ vis2 ∧ c' ∉ n :: stk) := fun v hv c' hc' => mInv2.1 v hv.1 hv.2 c' hc'
        have hfin : n ∈ vis2 ∧ n ∉ n :: stk :=
          reach_closed (S := fun x => x ∈ vis2 ∧ x ∉ n :: stk) hclosed hcS
            (show Reaches g c n from hcn)
        exact hfin.2 (List.mem_cons_self _ _)
      have hreach : LeadsOut g n → r = true := by
        intro hl
        by_cases hno : n ∈ g.outputs
        · exact m8 (by simp [hno])
        · obtain ⟨o, ho, hro⟩ := hl
          rcases Relation.ReflTransGen.cases_head hro with heq | ⟨c, hnc, hco⟩
          · exact absurd (by rw [heq]; exact ho) hno
          · have hcv := m7 c (mem_childrenOf.mpr hnc)
            have hcid : c ∈ id2 := mInv2.2.2 c hcv.1 hcv.2 ⟨o, ho, hco⟩
            exact m10 c (mem_childrenOf.mpr hnc) hcid
      have hlor : r = true → LeadsOut g n := by
        intro hr
        rcases m9 hr with h0 | ⟨c, hc, hcid⟩
        · exact ⟨n, of_decide_eq_true h0, Relation.ReflTransGen.refl⟩
        · obtain ⟨o, ho, hco⟩ := (mSound2 c hcid).2
          exact ⟨o, ho, Relation.ReflTransGen.head (mem_childrenOf.mp hc) hco⟩
      refine ⟨fun x hx => m1 x (List.mem_cons_of_mem _ hx),
        m1 n (List.mem_cons_self _ _), fun x hx => ?_, fun x hx => ?_, ⟨?_, ?_, ?_⟩, ?_⟩
      · by_cases hr : r = true
        · rw [if_pos hr]
          exact mem_addNode.mpr (Or.inl (m2 x hx))
        · rw [if_neg hr]
          exact m2 x hx
      · have hcase : x ∈ id2 ∨ x = n := by
          by_cases hr : r = true
          · rw [if_pos hr] at hx
            exact mem_addNode.mp hx
          · rw [if_neg hr] at hx
            exact Or.inl hx
        rcases hcase with hid2 | rfl
        · rcases m3 x hid2 with hid | ⟨hv2, hnv2⟩
          · exact Or.inl hid
          · exact Or.inr ⟨hv2, fun hv => hnv2 (List.mem_cons_of_mem _ hv)⟩
        · exact Or.inr ⟨m1 x (List.mem_cons_self _ _), hnv⟩
      · intro v hv hvs c hc
        by_cases hvn : v = n
        · subst hvn
          obtain ⟨hcv, hcsn⟩ := m7 c (mem_childrenOf.mpr hc)
          exact ⟨hcv, fun h => hcsn (List.mem_cons_of_mem _ h)⟩
        · obtain ⟨hcv, hcsn⟩ := mInv2.1 v hv (by simp [List.mem_cons, hvn, hvs]) c hc
          exact ⟨hcv, fun h => hcsn (List.mem_cons_of_mem _ h)⟩
      · intro v hv hvs
        by_cases hvn : v = n
        · subst hvn; exact hnocyc
        · exact mInv2.2.1 v hv (by simp [List.mem_cons, hvn, hvs])
      · intro v hv hvs hl
        by_cases hvn : v = n
        · subst hvn
          rw [if_pos (hreach hl)]
          exact mem_addNode.mpr (Or.inr rfl)
        · have hv2 := mInv2.2.2 v hv (by simp [List.mem_cons, hvn, hvs]) hl
          by_cases hr : r = true
          · rw [if_pos hr]
            exact mem_addNode.mpr (Or.inl hv2)
          · rw [if_neg hr]
            exact hv2
      · intro x hx
        by_cases hr : r = true
        · rw [if_pos hr] at hx
          rcases mem_addNode.mp hx with hxid | rfl
          · exact mSound2 x hxid
          · exact ⟨hfi, hlor hr⟩
        · rw [if_neg hr] at hx
          exact mSound2 x hx

/-! ## Phase-1 level lemmas -/

theorem phase1_nil (g : Graph) (fuel : Nat) (id : List Nat) :
    phase1 g fuel id [] = .ok id := rfl

theorem phase1_cons (g : Graph) (fuel : Nat) (id : List Nat) (i : Nat) (rest : List Nat) :
    phase1 g fuel id (i :: rest) =
    match searchNetwork g fuel i id [] [] with
    | .error e => .error e
    | .ok (id2, _) => phase1 g fuel id2 rest := rfl

theorem dfsInv_nil (g : Graph) (id : List Nat) : DfsInv g id [] [] :=
  ⟨fun v hv => absurd hv (List.not_mem_nil v),
   fun v hv => absurd hv (List.not_mem_nil v),
   fun v hv => absurd hv (List.not_mem_nil v)⟩

/-- Running phase 1 over a list of declared inputs: `node_to_id` stays sound
(only nodes on input-output paths), grows monotonically, and afterwards, for
every processed input `i`, every node reachable from `i` that leads to an
output is recorded, and no node reachable from `i` lies on a cycle. -/
theorem phase1Master (g : Graph) (fuel : Nat) : ∀ (inputsL id id' : List Nat),
    (∀ i ∈ inputsL, i ∈ g.inputs) → IdSound g id →
    phase1 g fuel id inputsL = .ok id' →
    IdSound g id' ∧ (∀ x ∈ id, x ∈ id') ∧
    (∀ i ∈ inputsL, ∀ v, Reaches g i v →
      (LeadsOut g v → v ∈ id') ∧ ¬ Relation.TransGen (Edge g) v v) := by
  intro inputsL
  induction inputsL with
  | nil =>
    intro id id' _ hSound hres
    rw [phase1_nil] at hres
    injection hres with h
    subst h
    exact ⟨hSound, fun x h => h, fun i hi => absurd hi (List.not_mem_nil i)⟩
  | cons i rest ih =>
    intro id id' hins hSound hres
    rw [phase1_cons] at hres
    cases hsn : searchNetwork g fuel i id [] [] with
    | error e => rw [hsn] at hres; cases hres
    | ok t =>
      obtain ⟨id2, vis2⟩ := t
      rw [hsn] at hres
      obtain ⟨_, c2, c3, _, cInv, cSound⟩ :=
        snMaster g fuel i id [] [] id2 vis2 (List.not_mem_nil i) (List.not_mem_nil i)
          ⟨i, hins i (List.mem_cons_self _ _), Relation.ReflTransGen.refl⟩
          (dfsInv_nil g id) hSound hsn
      obtain ⟨sSound, sMono, sReach⟩ :=
        ih id2 id' (fun x hx => hins x (List.mem_cons_of_mem _ hx)) cSound hres
      refine ⟨sSound, fun x hx => sMono x (c3 x hx), ?_⟩
      intro i' hi' v hv
      rcases List.mem_cons.mp hi' with rfl | hi''
      · have hv2 : v ∈ vis2 :=
          reach_closed (S := fun x => x ∈ vis2)
            (fun w hw c hc => (cInv.1 w hw (List.not_mem_nil w) c hc).1) c2 hv
        exact ⟨fun hl => sMono v (cInv.2.2 v hv2 (List.not_mem_nil v) hl),
          cInv.2.1 v hv2 (List.not_mem_nil v)⟩
      · exact sReach i' hi'' v hv

theorem phase1Err (g : Graph) (fuel : Nat) : ∀ (inputsL id : List Nat) (e : NetErr),
    phase1 g fuel id inputsL = .error e → e = .cycle ∨ e = .fuelOut := by
  intro inputsL
  induction inputsL with
  | nil => intro id e hres; cases hres
  | cons i rest ih =>
    intro id e hres
    rw [phase1_cons] at hres
    cases hsn : searchNetwork g fuel i id [] [] with
    | error e2 =>
      rw [hsn] at hres
      injection hres with h
      exact h ▸ snErr g fuel i id [] [] e2 hsn
    | ok t =>
      obtain ⟨id2, vis2⟩ := t
      rw [hsn] at hres
      exact ih id2 e hres

theorem phase1Fuel (g : Graph) (hwf : Wf g) (fuel : Nat) (hfl : g.numNodes < fuel) :
    ∀ (inputsL id : List Nat), (∀ i ∈ inputsL, i < g.numNodes) →
    phase1 g fuel id inputsL ≠ .error .fuelOut := by
  intro inputsL
  induction inputsL with
  | nil => intro id _ hres; cases hres
  | cons i rest ih =>
    intro id hlt hres
    rw [phase1_cons] at hres
    cases hsn : searchNetwork g fuel i id [] [] with
    | error e =>
      rw [hsn] at hres
      injection hres with h
      subst h
      have huc : uc g [] < fuel := by rw [uc_nil]; exact hfl
      exact snFuel g hwf fuel i id [] [] (hlt i (List.mem_cons_self _ _))
        (List.not_mem_nil i) huc hsn
    | ok t =>
      obtain ⟨id2, vis2⟩ := t
      rw [hsn] at hres
      exact ih id2 (fun x hx => hlt x (List.mem_cons_of_mem _ hx)) hres

/-- A directed cycle reachable from a declared input makes phase 1 raise the
cycle error. -/
theorem phase1CycleDetect (g : Graph) (hwf : Wf g) (hcyc : HasReachableCycle g) :
    phase1 g (dfsFuel g) [] g.inputs = .error .cycle := by
  obtain ⟨i, hi, v, hiv, hvv⟩ := hcyc
  cases hres : phase1 g (dfsFuel g) [] g.inputs with
  | ok id' =>
    obtain ⟨_, _, hreaches⟩ := phase1Master g (dfsFuel g) g.inputs [] id'
      (fun x hx => hx) (fun x hx => absurd hx (List.not_mem_nil x)) hres
    exact absurd hvv (hreaches i hi v hiv).2
  | error e =>
    rcases phase1Err g (dfsFuel g) g.inputs [] e hres with rfl | rfl
    · rfl
    · exact absurd hres (phase1Fuel g hwf (dfsFuel g) (Nat.lt_succ_self g.numNodes)
        g.inputs [] (fun x hx => hwf.2.1 x hx))

/-! ## Phase-2 helper lemmas -/

theorem blockAt_mem {g : Graph} {i : Nat} (h : i < g.blocks.length) : blockAt g i ∈ g.blocks := by
  rw [blockAt, getD_eq_get defaultBlock g.blocks i h]
  exact List.get_mem _ _ _

theorem addHypermodel_spec {g : Graph} {b : Nat} {hms id hms2 id2 : List Nat}
    (h : addHypermodel g b hms id = .ok (hms2, id2)) :
    id2 = addNodes id (blockAt g b).outputs ∧
    hms2 = (if b ∈ hms then hms else hms ++ [b]) ∧
    (∀ n ∈ (blockAt g b).inputs, n ∈ id2) := by
  by_cases hall : ((blockAt g b).inputs.all
      (fun n => decide (n ∈ addNodes id (blockAt g b).outputs))) = true
  · simp only [addHypermodel] at h
    rw [if_pos hall] at h
    injection h with h2
    have e1 : hms2 = if b ∈ hms then hms else hms ++ [b] := (congrArg Prod.fst h2).symm
    have e2 : id2 = addNodes id (blockAt g b).outputs := (congrArg Prod.snd h2).symm
    refine ⟨e2, e1, ?_⟩
    intro n hn
    rw [e2]
    exact of_decide_eq_true (List.all_eq_true.mp hall n hn)
  · simp only [addHypermodel] at h
    rw [if_neg hall] at h
    cases h

theorem addHypermodel_err {g : Graph} {b : Nat} {hms id : List Nat} {e : NetErr}
    (h : addHypermodel g b hms id = .error e) : e = .missingInput (blockAt g b).name := by
  by_cases hall : ((blockAt g b).inputs.all
      (fun n => decide (n ∈ addNodes id (blockAt g b).outputs))) = true
  · simp only [addHypermodel] at h
    rw [if_pos hall] at h
    cases h
  · simp only [addHypermodel] at h
    rw [if_neg hall] at h
    injection h with h2
    exact h2.symm

/-- If some input of the block is missing from `node_to_id` after its
outputs are added, `_add_hypermodel` raises the missing-input error. -/
theorem addHypermodel_missing {g : Graph} {b : Nat} {hms id : List Nat}
    (h : ∃ n ∈ (blockAt g b).inputs, n ∉ addNodes id (blockAt g b).outputs) :
    addHypermodel g b hms id = .error (.missingInput (blockAt g b).name) := by
  obtain ⟨n, hn, hnid⟩ := h
  have hall : ¬ ((blockAt g b).inputs.all
      (fun n => decide (n ∈ addNodes id (blockAt g b).outputs))) = true := by
    intro hall
    exact hnid (of_decide_eq_true (List.all_eq_true.mp hall n hn))
  simp only [addHypermodel]
  rw [if_neg hall]

theorem enqueue_cons (id : List Nat) (o : Nat) (rest q vis : List Nat) :
    enqueueOutputs id (o :: rest) q vis =
    if o ∉ vis ∧ o ∈ id then enqueueOutputs id rest (q ++ [o]) (o :: vis)
    else enqueueOutputs id rest q vis := rfl

theorem enqueue_spec (id : List Nat) : ∀ (outs q vis : List Nat),
    (∀ x ∈ q, x ∈ (enqueueOutputs id outs q vis).1) ∧
    (∀ x ∈ vis, x ∈ (enqueueOutputs id outs q vis).2) ∧
    (∀ x ∈ (enqueueOutputs id outs q vis).1, x ∈ q ∨ (x ∈ outs ∧ x ∈ id)) ∧
    (∀ x ∈ (enqueueOutputs id outs q vis).2, x ∈ vis ∨ (x ∈ outs ∧ x ∈ id)) ∧
    ((∀ x ∈ q, x ∈ vis) → ∀ x ∈ (enqueueOutputs id outs q vis).1,
        x ∈ (enqueueOutputs id outs q vis).2) := by
  intro outs
  induction outs with
  | nil =>
    intro q vis
    exact ⟨fun x h => h, fun x h => h, fun x h => Or.inl h, fun x h => Or.inl h, fun h => h⟩
  | cons o rest ih =>
    intro q vis
    rw [enqueue_cons]
    by_cases hcond : o ∉ vis ∧ o ∈ id
    · rw [if_pos hcond]
      obtain ⟨i1, i2, i3, i4, i5⟩ := ih (q ++ [o]) (o :: vis)
      refine ⟨fun x hx => i1 x (List.mem_append_left _ hx),
        fun x hx => i2 x (List.mem_cons_of_mem _ hx), ?_, ?_, ?_⟩
      · intro x hx
        rcases i3 x hx with hq | ⟨hr, hid⟩
        · rcases List.mem_append.mp hq with hq' | ho
          · exact Or.inl hq'
          · rcases List.mem_singleton.mp ho with rfl
            exact Or.inr ⟨List.mem_cons_self _ _, hcond.2⟩
        · exact Or.inr ⟨List.mem_cons_of_mem _ hr, hid⟩
      · intro x hx
        rcases i4 x hx with hv | ⟨hr, hid⟩
        · rcases List.mem_cons.mp hv with rfl | hv'
          · exact Or.inr ⟨List.mem_cons_self _ _, hcond.2⟩
          · exact Or.inl hv'
        · exact Or.inr ⟨List.mem_cons_of_mem _ hr, hid⟩
      · intro hqv
        refine i5 ?_
        intro x hx
        rcases List.mem_append.mp hx with hq' | ho
        · exact List.mem_cons_of_mem _ (hqv x hq')
        · rcases List.mem_singleton.mp ho with rfl
          exact List.mem_cons_self _ _
    · rw [if_neg hcond]
      obtain ⟨i1, i2, i3, i4, i5⟩ := ih q vis
      refine ⟨i1, i2, ?_, ?_, i5⟩
      · intro x hx
        rcases i3 x hx with hq | ⟨hr, hid⟩
        · exact Or.inl hq
        · exact Or.inr ⟨List.mem_cons_of_mem _ hr, hid⟩
      · intro x hx
        rcases i4 x hx with hv | ⟨hr, hid⟩
        · exact Or.inl hv
        · exact Or.inr ⟨List.mem_cons_of_mem _ hr, hid⟩

theorem enqueue_measure (g : Graph) (id : List Nat) : ∀ (outs q vis : List Nat),
    (∀ o ∈ outs, o < g.numNodes) →
    (enqueueOutputs id outs q vis).1.length + uc g (enqueueOutputs id outs q vis).2 =
    q.length + uc g vis := by
  intro outs
  induction outs with
  | nil => intro q vis _; rfl
  | cons o rest ih =>
    intro q vis hlt
    rw [enqueue_cons]
    by_cases hcond : o ∉ vis ∧ o ∈ id
    · rw [if_pos hcond]
      rw [ih (q ++ [o]) (o :: vis) (fun x hx => hlt x (List.mem_cons_of_mem _ hx))]
      have huc := uc_cons (g := g) (hlt o (List.mem_cons_self _ _)) hcond.1
      rw [List.length_append]
      simp only [List.length_singleton]
      omega
    · rw [if_neg hcond]
      exact ih q vis (fun x hx => hlt x (List.mem_cons_of_mem _ hx))

theorem weakOrder_nil (g : Graph) : WeakOrder g [] := by
  intro i hi
  exact absurd hi (by simp)

theorem weakOrder_append {g : Graph} {hms : List Nat} {b : Nat}
    (h : WeakOrder g hms)
    (hb : ∃ n ∈ (blockAt g b).inputs,
      n ∈ g.inputs ∨ ∃ b' ∈ hms, n ∈ (blockAt g b').outputs) :
    WeakOrder g (hms ++ [b]) := by
  intro i hi
  have hi2 : i < hms.length + 1 := by simpa using hi
  by_cases hlt : i < hms.length
  · obtain ⟨n, hn, hor⟩ := h i hlt
    rw [nthB_append_lt hlt]
    refine ⟨n, hn, ?_⟩
    rcases hor with h1 | ⟨j, hj, hjn⟩
    · exact Or.inl h1
    · refine Or.inr ⟨j, hj, ?_⟩
      rw [nthB_append_lt (lt_trans hj hlt)]
      exact hjn
  · have hi' : i = hms.length := by omega
    subst hi'
    rw [nthB_append_len]
    obtain ⟨n, hn, hor⟩ := hb
    refine ⟨n, hn, ?_⟩
    rcases hor with h1 | ⟨b', hb', hbn⟩
    · exact Or.inl h1
    · obtain ⟨j, hj, hjb⟩ := mem_iff_nthB.mp hb'
      refine Or.inr ⟨j, hj, ?_⟩
      rw [nthB_append_lt hj, hjb]
      exact hbn

/-! ## Phase-2 BFS invariant -/

/-- The invariant of the phase-2 BFS loop: queue members are visited;
visited nodes are reachable from declared inputs and are declared inputs or
outputs of admitted blocks; every admitted block has all inputs in
`node_to_id`; `node_to_id` holds only reachable nodes that lead to an
output or are outputs of admitted blocks; the admitted list has no
duplicates and satisfies the weak order property. -/
def BInv (g : Graph) (q vis hms id : List Nat) : Prop :=
  (∀ x ∈ q, x ∈ vis) ∧
  (∀ v ∈ vis, FromInput g v) ∧
  (∀ v ∈ vis, v ∈ g.inputs ∨ ∃ b ∈ hms, v ∈ (blockAt g b).outputs) ∧
  (∀ b ∈ hms, ∀ n ∈ (blockAt g b).inputs, n ∈ id) ∧
  (∀ x ∈ id, FromInput g x ∧ (LeadsOut g x ∨ ∃ b ∈ hms, x ∈ (blockAt g b).outputs)) ∧
  hms.Nodup ∧ WeakOrder g hms

theorem processBlocks_nil (g : Graph) (q vis hms id : List Nat) :
    processBlocks g [] q vis hms id = .ok (q, vis, hms, id) := rfl

theorem processBlocks_cons (g : Graph) (b : Nat) (rest q vis hms id : List Nat) :
    processBlocks g (b :: rest) q vis hms id =
    if (blockAt g b).outputs.any (fun o => decide (o ∈ id)) then
      match addHypermodel g b hms id with
      | .error e => .error e
      | .ok (hms2, id2) =>
        match enqueueOutputs id2 (blockAt g b).outputs q vis with
        | (q2, vis2) => processBlocks g rest q2 vis2 hms2 id2
    else processBlocks g rest q vis hms id := rfl

theorem processBlocks_spec (g : Graph) (hwf : Wf g) (u : Nat) :
    ∀ (bs q vis hms id q2 vis2 hms2 id2 : List Nat),
    (∀ b ∈ bs, b < g.blocks.length ∧ u ∈ (blockAt g b).inputs) →
    u ∈ vis →
    BInv g q vis hms id →
    processBlocks g bs q vis hms id = .ok (q2, vis2, hms2, id2) →
    BInv g q2 vis2 hms2 id2 ∧ (∀ x ∈ hms, x ∈ hms2) ∧ (∀ x ∈ id, x ∈ id2) ∧
    q2.length + uc g vis2 = q.length + uc g vis := by
  intro bs
  induction bs with
  | nil =>
    intro q vis hms id q2 vis2 hms2 id2 _ _ hBI hres
    rw [processBlocks_nil] at hres
    injection hres with h2
    have e1 : q = q2 := congrArg Prod.fst h2
    have e2 : vis = vis2 := congrArg (fun p => p.2.1) h2
    have e3 : hms = hms2 := congrArg (fun p => p.2.2.1) h2
    have e4 : id = id2 := congrArg (fun p => p.2.2.2) h2
    subst e1 e2 e3 e4
    exact ⟨hBI, fun x h => h, fun x h => h, rfl⟩
  | cons b rest ih =>
    intro q vis hms id q2 vis2 hms2 id2 hbs hu hBI hres
    rw [processBlocks_cons] at hres
    by_cases hadm : ((blockAt g b).outputs.any (fun o => decide (o ∈ id))) = true
    · rw [if_pos hadm] at hres
      cases hAH : addHypermodel g b hms id with
      | error e => rw [hAH] at hres; cases hres
      | ok t =>
        obtain ⟨hmsA, idA⟩ := t
        rw [hAH] at hres
        dsimp only at hres
        obtain ⟨eid, ehms, hinp⟩ := addHypermodel_spec hAH
        obtain ⟨hblt, hbu⟩ := hbs b (List.mem_cons_self _ _)
        have hblk := blockAt_mem hblt
        have houtlt : ∀ o ∈ (blockAt g b).outputs, o < g.numNodes := fun o ho =>
          (hwf.1 _ hblk).2 o ho
        -- the admitted block is in the new list, and the old list persists
        have hmssub : ∀ x ∈ hms, x ∈ hmsA := by
          intro x hx
          rw [ehms]
          by_cases hbh : b ∈ hms
          · rw [if_pos hbh]; exact hx
          · rw [if_neg hbh]; exact List.mem_append_left _ hx
        have hbmem : b ∈ hmsA := by
          rw [ehms]
          by_cases hbh : b ∈ hms
          · rw [if_pos hbh]; exact hbh
          · rw [if_neg hbh]; exact List.mem_append_right _ (List.mem_singleton.mpr rfl)
        have hidsub : ∀ x ∈ id, x ∈ idA := by
          intro x hx
          rw [eid]
          exact (mem_addNodes _ _).mpr (Or.inl hx)
        have hidchar : ∀ x ∈ idA, x ∈ id ∨ x ∈ (blockAt g b).outputs := by
          intro x hx
          rw [eid] at hx
          exact (mem_addNodes _ _).mp hx
        have hedge : ∀ x ∈ (blockAt g b).outputs, Edge g u x := fun x hx =>
          ⟨blockAt g b, hblk, hbu, hx⟩
        have hfromu : FromInput g u := hBI.2.1 u hu
        have hfromout : ∀ x ∈ (blockAt g b).outputs, FromInput g x := by
          intro x hx
          obtain ⟨i0, hi0, hp⟩ := hfromu
          exact ⟨i0, hi0, hp.tail (hedge x hx)⟩
        rcases henq : enqueueOutputs idA (blockAt g b).outputs q vis with ⟨qE, visE⟩
        rw [henq] at hres
        obtain ⟨e1, e2, e3, e4, e5⟩ := enqueue_spec idA (blockAt g b).outputs q vis
        rw [henq] at e1 e2 e3 e4 e5
        have hBI2 : BInv g qE visE hmsA idA := by
          obtain ⟨b1, b2, b3, b4, b5, b6, b7⟩ := hBI
          refine ⟨e5 b1, ?_, ?_, ?_, ?_, ?_, ?_⟩
          · intro v hv
            rcases e4 v hv with hv' | ⟨ho, _⟩
            · exact b2 v hv'
            · exact hfromout v ho
          · intro v hv
            rcases e4 v hv with hv' | ⟨ho, _⟩
            · rcases b3 v hv' with h1 | ⟨b', hb', hvo⟩
              · exact Or.inl h1
              · exact Or.inr ⟨b', hmssub b' hb', hvo⟩
            · exact Or.inr ⟨b, hbmem, ho⟩
          · intro b' hb' n hn
            rw [ehms] at hb'
            by_cases hbh : b ∈ hms
            · rw [if_pos hbh] at hb'
              exact hidsub n (b4 b' hb' n hn)
            · rw [if_neg hbh] at hb'
              rcases List.mem_append.mp hb' with hb'' | hb''
              · exact hidsub n (b4 b' hb'' n hn)
              · rcases List.mem_singleton.mp hb'' with rfl
                exact hinp n hn
          · intro x hx
            rcases hidchar x hx with hxid | hxo
            · obtain ⟨hf, hlo⟩ := b5 x hxid
              refine ⟨hf, ?_⟩
              rcases hlo with h1 | ⟨b', hb', hxo'⟩
              · exact Or.inl h1
              · exact Or.inr ⟨b', hmssub b' hb', hxo'⟩
            · exact ⟨hfromout x hxo, Or.inr ⟨b, hbmem, hxo⟩⟩
          · rw [ehms]
            by_cases hbh : b ∈ hms
            · rw [if_pos hbh]; exact b6
            · rw [if_neg hbh]
              rw [List.nodup_append]
              exact ⟨b6, List.nodup_singleton _, by
                intro a ha hab
                rcases List.mem_singleton.mp hab with rfl
                exact hbh ha⟩
          · rw [ehms]
            by_cases hbh : b ∈ hms
            · rw [if_pos hbh]; exact b7
            · rw [if_neg hbh]
              exact weakOrder_append b7 ⟨u, hbu, b3 u hu⟩
        have huE : u ∈ visE := e2 u hu
        obtain ⟨s1, s2, s3, s4⟩ :=
          ih qE visE hmsA idA q2 vis2 hms2 id2
            (fun b' hb' => hbs b' (List.mem_cons_of_mem _ hb')) huE hBI2 hres
        refine ⟨s1, fun x hx => s2 x (hmssub x hx), fun x hx => s3 x (hidsub x hx), ?_⟩
        have hm := enqueue_measure g idA (blockAt g b).outputs q vis houtlt
        rw [henq] at hm
        rw [s4]
        exact hm
    · rw [if_neg hadm] at hres
      exact ih q vis hms id q2 vis2 hms2 id2
        (fun b' hb' => hbs b' (List.mem_cons_of_mem _ hb')) hu hBI hres

theorem processBlocks_err (g : Graph) : ∀ (bs q vis hms id : List Nat) (e : NetErr),
    processBlocks g bs q vis hms id = .error e → ∃ nm, e = .missingInput nm := by
  intro bs
  induction bs with
  | nil => intro q vis hms id e hres; cases hres
  | cons b rest ih =>
    intro q vis hms id e hres
    rw [processBlocks_cons] at hres
    by_cases hadm : ((blockAt g b).outputs.any (fun o => decide (o ∈ id))) = true
    · rw [if_pos hadm] at hres
      cases hAH : addHypermodel g b hms id with
      | error e2 =>
        rw [hAH] at hres
        injection hres with h
        exact ⟨(blockAt g b).name, h ▸ addHypermodel_err hAH⟩
      | ok t =>
        obtain ⟨hmsA, idA⟩ := t
        rw [hAH] at hres
        dsimp only at hres
        rcases henq : enqueueOutputs idA (blockAt g b).outputs q vis with ⟨qE, visE⟩
        rw [henq] at hres
        exact ih qE visE hmsA idA e hres
    · rw [if_neg hadm] at hres
      exact ih q vis hms id e hres

theorem processBlocks_measure (g : Graph) (hwf : Wf g) :
    ∀ (bs q vis hms id q2 vis2 hms2 id2 : List Nat),
    (∀ b ∈ bs, b < g.blocks.length) →
    processBlocks g bs q vis hms id = .ok (q2, vis2, hms2, id2) →
    q2.length + uc g vis2 = q.length + uc g vis := by
  intro bs
  induction bs with
  | nil =>
    intro q vis hms id q2 vis2 hms2 id2 _ hres
    rw [processBlocks_nil] at hres
    injection hres with h2
    have e1 : q = q2 := congrArg Prod.fst h2
    have e2 : vis = vis2 := congrArg (fun p => p.2.1) h2
    subst e1 e2
    rfl
  | cons b rest ih =>
    intro q vis hms id q2 vis2 hms2 id2 hbs hres
    rw [processBlocks_cons] at hres
    by_cases hadm : ((blockAt g b).outputs.any (fun o => decide (o ∈ id))) = true
    · rw [if_pos hadm] at hres
      cases hAH : addHypermodel g b hms id with
      | error e => rw [hAH] at hres; cases hres
      | ok t =>
        obtain ⟨hmsA, idA⟩ := t
        rw [hAH] at hres
        dsimp only at hres
        have hblk := blockAt_mem (hbs b (List.mem_cons_self _ _))
        have houtlt : ∀ o ∈ (blockAt g b).outputs, o < g.numNodes := fun o ho =>
          (hwf.1 _ hblk).2 o ho
        rcases henq : enqueueOutputs idA (blockAt g b).outputs q vis with ⟨qE, visE⟩
        rw [henq] at hres
        have hm := enqueue_measure g idA (blockAt g b).outputs q vis houtlt
        rw [henq] at hm
        rw [ih qE visE hmsA idA q2 vis2 hms2 id2
          (fun b' hb' => hbs b' (List.mem_cons_of_mem _ hb')) hres]
        exact hm
    · rw [if_neg hadm] at hres
      exact ih q vis hms id q2 vis2 hms2 id2
        (fun b' hb' => hbs b' (List.mem_cons_of_mem _ hb')) hres

theorem bfs_zero (g : Graph) (q vis hms id : List Nat) :
    bfs g 0 q vis hms id = .error .fuelOut := rfl

theorem bfs_nil (g : Graph) (fuel : Nat) (vis hms id : List Nat) :
    bfs g (fuel + 1) [] vis hms id = .ok (hms, id) := rfl

theorem bfs_cons (g : Graph) (fuel u : Nat) (q vis hms id : List Nat) :
    bfs g (fuel + 1) (u :: q) vis hms id =
    match processBlocks g (outHypermodels g u) q vis hms id with
    | .error e => .error e
    | .ok (q2, vis2, hms2, id2) => bfs g fuel q2 vis2 hms2 id2 := rfl

theorem bfs_spec (g : Graph) (hwf : Wf g) : ∀ (fuel : Nat) (q vis hms id hms2 id2 : List Nat),
    BInv g q vis hms id →
    bfs g fuel q vis hms id = .ok (hms2, id2) →
    (∀ b ∈ hms2, ∀ n ∈ (blockAt g b).inputs, n ∈ id2) ∧
    hms2.Nodup ∧ WeakOrder g hms2 ∧ (∀ x ∈ id, x ∈ id2) ∧
    (∀ x ∈ id2, FromInput g x ∧ (LeadsOut g x ∨ ∃ b ∈ hms2, x ∈ (blockAt g b).outputs)) := by
  intro fuel
  induction fuel with
  | zero => intro q vis hms id hms2 id2 _ hres; cases hres
  | succ fuel ih =>
    intro q vis hms id hms2 id2 hBI hres
    cases q with
    | nil =>
      rw [bfs_nil] at hres
      injection hres with h2
      have e1 : hms = hms2 := congrArg Prod.fst h2
      have e2 : id = id2 := congrArg Prod.snd h2
      subst e1 e2
      exact ⟨hBI.2.2.2.1, hBI.2.2.2.2.2.1, hBI.2.2.2.2.2.2, fun x h => h, hBI.2.2.2.2.1⟩
    | cons u q' =>
      rw [bfs_cons] at hres
      cases hPB : processBlocks g (outHypermodels g u) q' vis hms id with
      | error e => rw [hPB] at hres; cases hres
      | ok t =>
        obtain ⟨q2, vis2, hms3, id3⟩ := t
        rw [hPB] at hres
        have hBI' : BInv g q' vis hms id :=
          ⟨fun x hx => hBI.1 x (List.mem_cons_of_mem _ hx), hBI.2.1, hBI.2.2.1,
            hBI.2.2.2.1, hBI.2.2.2.2.1, hBI.2.2.2.2.2.1, hBI.2.2.2.2.2.2⟩
        obtain ⟨hBI2, _, hidsub, _⟩ :=
          processBlocks_spec g hwf u (outHypermodels g u) q' vis hms id q2 vis2 hms3 id3
            (fun b hb => mem_outHypermodels.mp hb)
            (hBI.1 u (List.mem_cons_self _ _)) hBI' hPB
        obtain ⟨s1, s2, s3, s4, s5⟩ := ih q2 vis2 hms3 id3 hms2 id2 hBI2 hres
        exact ⟨s1, s2, s3, fun x hx => s4 x (hidsub x hx), s5⟩

theorem bfs_fuel (g : Graph) (hwf : Wf g) : ∀ (fuel : Nat) (q vis hms id : List Nat),
    q.length + uc g vis < fuel → bfs g fuel q vis hms id ≠ .error .fuelOut := by
  intro fuel
  induction fuel with
  | zero => intro q vis hms id h; exact absurd h (Nat.not_lt_zero _)
  | succ fuel ih =>
    intro q vis hms id hm hres
    cases q with
    | nil => rw [bfs_nil] at hres; cases hres
    | cons u q' =>
      rw [bfs_cons] at hres
      cases hPB : processBlocks g (outHypermodels g u) q' vis hms id with
      | error e =>
        rw [hPB] at hres
        injection hres with h
        obtain ⟨nm, hnm⟩ := processBlocks_err g (outHypermodels g u) q' vis hms id e hPB
        rw [h] at hnm
        cases hnm
      | ok t =>
        obtain ⟨q2, vis2, hms3, id3⟩ := t
        rw [hPB] at hres
        have hmeq := processBlocks_measure g hwf (outHypermodels g u) q' vis hms id
          q2 vis2 hms3 id3 (fun b hb => (mem_outHypermodels.mp hb).1) hPB
        have hlt : q2.length + uc g vis2 < fuel := by
          rw [hmeq]
          simp only [List.length_cons] at hm
          omega
        exact ih q2 vis2 hms3 id3 hlt hres

theorem bfs_err (g : Graph) : ∀ (fuel : Nat) (q vis hms id : List Nat) (e : NetErr),
    bfs g fuel q vis hms id = .error e → e = .fuelOut ∨ ∃ nm, e = .missingInput nm := by
  intro fuel
  induction fuel with
  | zero =>
    intro q vis hms id e hres
    rw [bfs_zero] at hres
    injection hres with h
    exact Or.inl h.symm
  | succ fuel ih =>
    intro q vis hms id e hres
    cases q with
    | nil => rw [bfs_nil] at hres; cases hres
    | cons u q' =>
      rw [bfs_cons] at hres
      cases hPB : processBlocks g (outHypermodels g u) q' vis hms id with
      | error e2 =>
        rw [hPB] at hres
        injection hres with h
        subst h
        exact Or.inr (processBlocks_err g (outHypermodels g u) q' vis hms id e2 hPB)
      | ok t =>
        obtain ⟨q2, vis2, hms3, id3⟩ := t
        rw [hPB] at hres
        exact ih q2 vis2 hms3 id3 e hres

/-! ## Resolve-level lemmas -/

theorem idSound_nil (g : Graph) : IdSound g [] :=
  fun x hx => absurd hx (List.not_mem_nil x)

theorem binv_start (g : Graph) (id1 : List Nat) (hSound : IdSound g id1) :
    BInv g g.inputs g.inputs [] id1 :=
  ⟨fun _ h => h,
   fun v hv => ⟨v, hv, Relation.ReflTransGen.refl⟩,
   fun _ hv => Or.inl hv,
   fun b hb => absurd hb (List.not_mem_nil b),
   fun x hx => ⟨(hSound x hx).1, Or.inl (hSound x hx).2⟩,
   List.nodup_nil, weakOrder_nil g⟩

theorem connected_iff (g : Graph) (id : List Nat) :
    connected g id = true ↔ ∀ n ∈ g.inputs ++ g.outputs, n ∈ id := by
  unfold connected
  rw [List.all_eq_true]
  constructor <;> intro h n hn
  · exact of_decide_eq_true (h n hn)
  · exact decide_eq_true (h n hn)

theorem finalize_cons (g : Graph) (o : Nat) (rest : List Nat) :
    finalizeOutputs g (o :: rest) =
    match inHypermodels g o with
    | [] => .error .indexError
    | b :: _ =>
      match finalizeOutputs g rest with
      | .error e => .error e
      | .ok bs => .ok (b :: bs) := rfl

theorem finalize_err (g : Graph) : ∀ (outsL : List Nat) (e : NetErr),
    finalizeOutputs g outsL = .error e → e = .indexError := by
  intro outsL
  induction outsL with
  | nil => intro e h; cases h
  | cons o rest ih =>
    intro e h
    rw [finalize_cons] at h
    cases hin : inHypermodels g o with
    | nil =>
      rw [hin] at h
      injection h with h2
      exact h2.symm
    | cons b bs' =>
      rw [hin] at h
      dsimp only at h
      cases hrec : finalizeOutputs g rest with
      | error e2 =>
        rw [hrec] at h
        injection h with h2
        exact h2 ▸ ih e2 hrec
      | ok bs =>
        rw [hrec] at h
        cases h

theorem finalize_ok_of_producers (g : Graph) : ∀ (outsL : List Nat),
    (∀ o ∈ outsL, inHypermodels g o ≠ []) → ∃ bs, finalizeOutputs g outsL = .ok bs := by
  intro outsL
  induction outsL with
  | nil => intro _; exact ⟨[], rfl⟩
  | cons o rest ih =>
    intro hprod
    obtain ⟨bs, hbs⟩ := ih (fun x hx => hprod x (List.mem_cons_of_mem _ hx))
    cases hin : inHypermodels g o with
    | nil => exact absurd hin (hprod o (List.mem_cons_self _ _))
    | cons b bs' =>
      refine ⟨b :: bs, ?_⟩
      rw [finalize_cons, hin]
      dsimp only
      rw [hbs]

theorem resolve_eq (g : Graph) :
    resolve g =
    match phase1 g (dfsFuel g) [] g.inputs with
    | .error e => .error e
    | .ok id =>
      if connected g id then
        match bfs g (bfsFuel g) g.inputs g.inputs [] id with
        | .error e => .error e
        | .ok (hms, idF) =>
          match finalizeOutputs g g.outputs with
          | .error e => .error e
          | .ok obs => .ok ⟨idF, hms, obs⟩
      else .error .disconnected := by
  unfold resolve resolveCore
  cases hp : phase1 g (dfsFuel g) [] g.inputs with
  | error e => rfl
  | ok id =>
    dsimp only
    by_cases hc : connected g id = true
    · rw [if_pos hc, if_pos hc]
    · rw [if_neg hc, if_neg hc]

/-- What a successful `_build_network` guarantees: completeness of
`node_to_id` on input-output paths, its soundness up to outputs of admitted
blocks, no duplicate admitted blocks, the weak order property, and all
admitted blocks' inputs having ids. -/
theorem resolve_ok_spec (g : Graph) (hwf : Wf g) (r : Resolved)
    (hres : resolve g = .ok r) :
    (∀ v, FromInput g v → LeadsOut g v → v ∈ r.nodeToId) ∧
    (∀ x ∈ r.nodeToId, FromInput g x ∧
      (LeadsOut g x ∨ ∃ b ∈ r.hypermodels, x ∈ (blockAt g b).outputs)) ∧
    r.hypermodels.Nodup ∧ WeakOrder g r.hypermodels ∧
    (∀ b ∈ r.hypermodels, ∀ n ∈ (blockAt g b).inputs, n ∈ r.nodeToId) := by
  rw [resolve_eq] at hres
  cases hp : phase1 g (dfsFuel g) [] g.inputs with
  | error e => rw [hp] at hres; cases hres
  | ok id1 =>
    rw [hp] at hres
    dsimp only at hres
    by_cases hc : connected g id1 = true
    · rw [if_pos hc] at hres
      cases hb : bfs g (bfsFuel g) g.inputs g.inputs [] id1 with
      | error e => rw [hb] at hres; cases hres
      | ok t =>
        obtain ⟨hms, idF⟩ := t
        rw [hb] at hres
        dsimp only at hres
        cases hf : finalizeOutputs g g.outputs with
        | error e => rw [hf] at hres; cases hres
        | ok obs =>
          rw [hf] at hres
          injection hres with h2
          subst h2
          obtain ⟨p1, _, p3⟩ := phase1Master g (dfsFuel g) g.inputs [] id1
            (fun x hx => hx) (idSound_nil g) hp
          obtain ⟨s1, s2, s3, s4, s5⟩ :=
            bfs_spec g hwf (bfsFuel g) g.inputs g.inputs [] id1 hms idF
              (binv_start g id1 p1) hb
          refine ⟨?_, s5, s2, s3, s1⟩
          intro v hfi hlo
          obtain ⟨i, hi, hri⟩ := hfi
          exact s4 v ((p3 i hi v hri).1 hlo)
    · rw [if_neg hc] at hres
      cases hres

/-- Resolution never exhausts the standard fuel on a well-formed graph: the
embedding's step bound is not an error source. -/
theorem resolve_not_fuelOut (g : Graph) (hwf : Wf g) : resolve g ≠ .error .fuelOut := by
  rw [resolve_eq]
  cases hp : phase1 g (dfsFuel g) [] g.inputs with
  | error e =>
    intro hres
    injection hres with h
    subst h
    exact phase1Fuel g hwf (dfsFuel g) (Nat.lt_succ_self _) g.inputs []
      (fun x hx => hwf.2.1 x hx) hp
  | ok id1 =>
    dsimp only
    by_cases hc : connected g id1 = true
    · rw [if_pos hc]
      cases hb : bfs g (bfsFuel g) g.inputs g.inputs [] id1 with
      | error e =>
        intro hres
        injection hres with h
        subst h
        have hm : g.inputs.length + uc g g.inputs < bfsFuel g := by
          have := uc_le g g.inputs
          unfold bfsFuel
          omega
        exact bfs_fuel g hwf (bfsFuel g) g.inputs g.inputs [] id1 hm hb
      | ok t =>
        obtain ⟨hms, idF⟩ := t
        intro hres
        dsimp only at hres
        cases hf : finalizeOutputs g g.outputs with
        | error e =>
          rw [hf] at hres
          injection hres with h
          have hix := finalize_err g g.outputs e hf
          rw [h] at hix
          cases hix
        | ok obs =>
          rw [hf] at hres
          cases hres
    · rw [if_neg hc]
      intro hres
      cases hres

/-- Given that phase 1 completed, the disconnected error is raised exactly
when some declared input or output node is missing from `node_to_id`. -/
theorem resolve_disconnected_iff (g : Graph) (id1 : List Nat)
    (hp : phase1 g (dfsFuel g) [] g.inputs = .ok id1) :
    (resolve g = .error .disconnected ↔ ∃ n ∈ g.inputs ++ g.outputs, n ∉ id1) := by
  rw [resolve_eq, hp]
  dsimp only
  by_cases hc : connected g id1 = true
  · rw [if_pos hc]
    constructor
    · intro hres
      cases hb : bfs g (bfsFuel g) g.inputs g.inputs [] id1 with
      | error e =>
        rw [hb] at hres
        injection hres with h
        rcases bfs_err g (bfsFuel g) g.inputs g.inputs [] id1 e hb with rfl | ⟨nm, rfl⟩
        · cases h
        · cases h
      | ok t =>
        obtain ⟨hms, idF⟩ := t
        rw [hb] at hres
        dsimp only at hres
        cases hf : finalizeOutputs g g.outputs with
        | error e =>
          rw [hf] at hres
          injection hres with h
          have hix := finalize_err g g.outputs e hf
          rw [hix] at h
          cases h
        | ok obs =>
          rw [hf] at hres
          cases hres
    · rintro ⟨n, hn, hnid⟩
      exact absurd ((connected_iff g id1).mp hc n hn) hnid
  · rw [if_neg hc]
    constructor
    · intro _
      have hne := hc
      rw [connected_iff] at hne
      push_neg at hne
      exact hne
    · intro _
      rfl

/-! ## `build` trace lemmas -/

theorem runBlocks_nil (g : Graph) (ids real : List Nat) :
    runBlocks g ids real [] = ([], real, true) := rfl

theorem runBlocks_cons (g : Graph) (ids real : List Nat) (b : Nat) (rest : List Nat) :
    runBlocks g ids real (b :: rest) =
    if lookupAll ids real (blockAt g b).inputs then
      match idsOf ids (blockAt g b).outputs with
      | none => ([b], real, false)
      | some ks =>
        match runBlocks g ids (ks ++ real) rest with
        | (tr, real2, ok) => (b :: tr, real2, ok)
    else ([], real, false) := rfl

/-- The invocation trace of the block loop of `build` is an initial segment
of the block order, and the whole order exactly when no lookup fails. -/
theorem runBlocks_trace (g : Graph) (ids : List Nat) : ∀ (bs real : List Nat),
    (∃ rest, bs = (runBlocks g ids real bs).1 ++ rest) ∧
    ((runBlocks g ids real bs).2.2 = true → (runBlocks g ids real bs).1 = bs) := by
  intro bs
  induction bs with
  | nil => intro real; exact ⟨⟨[], rfl⟩, fun _ => rfl⟩
  | cons b rest ih =>
    intro real
    rw [runBlocks_cons]
    by_cases hl : lookupAll ids real (blockAt g b).inputs = true
    · rw [if_pos hl]
      cases hids : idsOf ids (blockAt g b).outputs with
      | none =>
        refine ⟨⟨rest, rfl⟩, ?_⟩
        intro h
        cases h
      | some ks =>
        dsimp only
        rcases hrb : runBlocks g ids (ks ++ real) rest with ⟨tr, real2, okf⟩
        obtain ⟨⟨rest', hrest⟩, htr⟩ := ih (ks ++ real)
        rw [hrb] at hrest htr
        refine ⟨⟨rest', ?_⟩, ?_⟩
        · rw [List.cons_append]
          rw [← hrest]
        · intro hok
          have := htr hok
          dsimp only at this ⊢
          rw [this]
    · rw [if_neg hl]
      refine ⟨⟨b :: rest, rfl⟩, ?_⟩
      intro h
      cases h

theorem buildTrace_spec (g : Graph) (r : Resolved) :
    (∃ rest, r.hypermodels = (buildTrace g r).1 ++ rest) ∧
    ((buildTrace g r).2 = true → (buildTrace g r).1 = r.hypermodels) := by
  unfold buildTrace
  cases hids : idsOf r.nodeToId g.inputs with
  | none => exact ⟨⟨r.hypermodels, rfl⟩, fun h => by cases h⟩
  | some ks =>
    dsimp only
    rcases hrb : runBlocks g r.nodeToId ks r.hypermodels with ⟨tr, real2, okf⟩
    obtain ⟨⟨rest', hrest⟩, htr⟩ := runBlocks_trace g r.nodeToId r.hypermodels ks
    rw [hrb] at hrest htr
    refine ⟨⟨rest', hrest⟩, ?_⟩
    intro hok
    dsimp only at hok ⊢
    exact htr (Bool.and_eq_true_iff.mp hok).1

/-! ## Metric and loss inference lemmas -/

theorem inferMetrics_iff (g : Graph) (hms : List Nat) :
    (inferMetrics g hms = .accuracy ↔ ∃ b ∈ hms, (blockAt g b).isClassificationHead = true) ∧
    (inferLoss g hms = .categoricalCrossentropy ↔
      ∃ b ∈ hms, (blockAt g b).isClassificationHead = true) ∧
    (inferMetrics g hms = .mse ↔ ¬ ∃ b ∈ hms, (blockAt g b).isClassificationHead = true) ∧
    (inferLoss g hms = .meanSquaredError ↔
      ¬ ∃ b ∈ hms, (blockAt g b).isClassificationHead = true) := by
  unfold inferMetrics inferLoss
  by_cases hany : (hms.any (fun b => (blockAt g b).isClassificationHead)) = true
  · rw [if_pos hany, if_pos hany]
    have hex : ∃ b ∈ hms, (blockAt g b).isClassificationHead = true :=
      List.any_eq_true.mp hany
    refine ⟨⟨fun _ => hex, fun _ => rfl⟩, ⟨fun _ => hex, fun _ => rfl⟩,
      ⟨fun h => (nomatch h), fun h => absurd hex h⟩,
      ⟨fun h => (nomatch h), fun h => absurd hex h⟩⟩
  · rw [if_neg hany, if_neg hany]
    have hnex : ¬ ∃ b ∈ hms, (blockAt g b).isClassificationHead = true := fun hex =>
      hany (List.any_eq_true.mpr hex)
    refine ⟨⟨fun h => (nomatch h), fun h => absurd h hnex⟩,
      ⟨fun h => (nomatch h), fun h => absurd h hnex⟩,
      ⟨fun _ => hnex, fun _ => rfl⟩, ⟨fun _ => hnex, fun _ => rfl⟩⟩

/-! ## Claim theorems -/

/-- A block leads to a declared output: some path from one of its output
nodes reaches a declared output node. -/
def BlockLeadsOut (g : Graph) (b : Nat) : Prop :=
  ∃ m ∈ (blockAt g b).outputs, LeadsOut g m

/-- C1 counterexample: the topology `gBP` is acyclic and its declared
output is reachable from the declared input, resolution succeeds with block
order `[B, P]` — yet `P` produces node 1, an input of `B`, and appears
strictly after `B`: the claimed topological order property fails. -/
theorem c1_counterexample :
    (∀ v, ¬ Relation.TransGen (Edge gBP) v v) ∧
    (∀ o ∈ gBP.outputs, ∃ i ∈ gBP.inputs, Reaches gBP i o) ∧
    resolve gBP = .ok ⟨[2, 1, 0], [0, 1], [0]⟩ ∧
    ¬ ClaimedOrder gBP [0, 1] := by
  refine ⟨?_, ?_, rfl, by decide⟩
  · refine no_cycle_of_rank (f := fun x => x) ?_
    have hb : ∀ x, x < 3 → ∀ y, y < 3 → Edge gBP x y → x < y := by decide
    intro x y h
    have hlt := edge_lt (g := gBP) (by decide) h
    exact hb x hlt.1 y hlt.2 h
  · intro o ho
    have ho2 : o = 2 := by
      simpa [gBP] using ho
    subst ho2
    exact ⟨0, by decide, Relation.ReflTransGen.single (by decide)⟩

/-- C1 (amended): for every well-formed topology, resolution never runs out
of the standard step bound (it terminates with a result or a diagnostic
error), and whenever it succeeds, every block of the produced order has at
least one input node that is a declared graph input or an output node of a
strictly earlier block of the order.  The claim's universal form — every
producer of every input node of an admitted block appears strictly earlier —
is false (see the counterexample). -/
theorem c1_amended (g : Graph) (hwf : Wf g) :
    resolve g ≠ .error .fuelOut ∧
    (∀ r, resolve g = .ok r → WeakOrder g r.hypermodels) :=
  ⟨resolve_not_fuelOut g hwf, fun r hr => (resolve_ok_spec g hwf r hr).2.2.2.1⟩

theorem c1_amended_witness :
    Wf gA ∧ resolve gA ≠ .error .fuelOut ∧ WeakOrder gA [0] := by
  have h := c1_amended gA (by decide)
  exact ⟨by decide, h.1, h.2 ⟨[1, 0], [0], [0]⟩ rfl⟩

/-- C2 counterexample: in `gMulti` the second output node 2 of the admitted
multi-output block does not lie on any input-to-output path, yet resolution
succeeds and `node_to_id` contains it (phase 2's `_add_hypermodel` adds all
outputs of an admitted block). -/
theorem c2_counterexample :
    resolve gMulti = .ok ⟨[1, 0, 2], [0], [0]⟩ ∧
    (2 : Nat) ∈ ([1, 0, 2] : List Nat) ∧
    ¬ OnPath gMulti 2 := by
  refine ⟨rfl, by decide, ?_⟩
  intro hop
  obtain ⟨o, ho, hro⟩ := hop.2
  have hno : ∀ c, ¬ Edge gMulti 2 c := by
    rintro c ⟨blk, hmem, hx, _⟩
    simp only [gMulti, List.mem_cons, List.not_mem_nil, or_false] at hmem
    subst hmem
    simp at hx
  have ho2 := reaches_self_of_no_out hno hro
  subst ho2
  simp [gMulti] at ho

/-- C2 (amended): after a successful resolution, `node_to_id` contains
every node lying on a path from a declared input to a declared output; and
every node it contains is reachable from a declared input and either lies
on a path to a declared output or is an output node of an admitted block.
A node of the latter kind may be present even though it lies on no
input-to-output path (see the counterexample). -/
theorem c2_amended (g : Graph) (hwf : Wf g) (r : Resolved) (hres : resolve g = .ok r) :
    (∀ v, OnPath g v → v ∈ r.nodeToId) ∧
    (∀ v ∈ r.nodeToId, FromInput g v ∧
      (LeadsOut g v ∨ ∃ b ∈ r.hypermodels, v ∈ (blockAt g b).outputs)) := by
  obtain ⟨h1, h2, _⟩ := resolve_ok_spec g hwf r hres
  exact ⟨fun v hv => h1 v hv.1 hv.2, h2⟩

theorem c2_amended_witness :
    Wf gMulti ∧ ∀ v ∈ ([1, 0, 2] : List Nat), FromInput gMulti v := by
  have h := c2_amended gMulti (by decide) ⟨[1, 0, 2], [0], [0]⟩ rfl
  exact ⟨by decide, fun v hv => (h.2 v hv).1⟩

/-- C3: for every well-formed topology with a directed cycle reachable from
a declared input, `_build_network` raises the cycle `ValueError` during the
phase-1 search, and no (partial) resolution result is produced. -/
theorem c3_cycle_error (g : Graph) (hwf : Wf g) (hcyc : HasReachableCycle g) :
    resolve g = .error .cycle := by
  rw [resolve_eq, phase1CycleDetect g hwf hcyc]

theorem c3_witness : Wf gCyc ∧ HasReachableCycle gCyc ∧ resolve gCyc = .error .cycle := by
  have hwf : Wf gCyc := by decide
  have hcyc : HasReachableCycle gCyc :=
    ⟨0, by decide, 1, Relation.ReflTransGen.single (by decide),
      Relation.TransGen.single (by decide)⟩
  exact ⟨hwf, hcyc, c3_cycle_error gCyc hwf hcyc⟩

/-- C4 counterexample: for the single input → block → output topology the
resolution of `gA` assigns `node_to_id = [1, 0]`, i.e. the output node 1
gets id 0 and the input node 0 gets id 1 — not input 0 / output 1 as the
claim states. -/
theorem c4_counterexample :
    (resolve gA).map (fun r => r.nodeToId) = .ok [1, 0] ∧
    ([1, 0] : List Nat) ≠ [0, 1] := ⟨rfl, by decide⟩

/-- C4 (amended): for the single input → block → output topology,
resolution yields `node_to_id` mapping the output node 1 to id 0 and the
input node 0 to id 1 (phase-1 ids are assigned in depth-first post-order: a
node receives its id only after its descendants), and the block order is
exactly the single block. -/
theorem c4_amended :
    resolve gA = .ok ⟨[1, 0], [0], [0]⟩ ∧
    idOf [1, 0] 1 = some 0 ∧ idOf [1, 0] 0 = some 1 := ⟨rfl, rfl, rfl⟩

/-- C5: given that the phase-1 search completed, `_build_network` raises
the disconnected `ValueError` exactly when some declared input or output
node carries no identifier; in particular it does so when a declared output
is unreachable from every declared input, or a declared input leads to no
declared output; conversely, when every declared input and output has an
identifier, the check passes (resolution does not raise this error). -/
theorem c5_disconnected (g : Graph) (id1 : List Nat)
    (hp : phase1 g (dfsFuel g) [] g.inputs = .ok id1) :
    (resolve g = .error .disconnected ↔ ∃ n ∈ g.inputs ++ g.outputs, n ∉ id1) ∧
    ((∃ o ∈ g.outputs, ¬ FromInput g o) → resolve g = .error .disconnected) ∧
    ((∃ i ∈ g.inputs, ¬ LeadsOut g i) → resolve g = .error .disconnected) := by
  have hiff := resolve_disconnected_iff g id1 hp
  obtain ⟨p1, _, _⟩ := phase1Master g (dfsFuel g) g.inputs [] id1 (fun x hx => hx)
    (idSound_nil g) hp
  refine ⟨hiff, ?_, ?_⟩
  · rintro ⟨o, ho, hnf⟩
    exact hiff.mpr ⟨o, List.mem_append_right _ ho, fun hoid => hnf (p1 o hoid).1⟩
  · rintro ⟨i, hi, hnl⟩
    exact hiff.mpr ⟨i, List.mem_append_left _ hi, fun hiid => hnl (p1 i hiid).2⟩

theorem c5_witness :
    resolve gDisc = .error .disconnected ∧ (1 : Nat) ∈ gDisc.outputs ∧
    ¬ FromInput gDisc 1 := by
  have hnf : ¬ FromInput gDisc 1 := by
    rintro ⟨i, hi, hri⟩
    have hno : ∀ c, ¬ Edge gDisc i c := by
      rintro c ⟨blk, hmem, _, _⟩
      exact absurd hmem (List.not_mem_nil blk)
    have h1 := reaches_self_of_no_out hno hri
    subst h1
    simp [gDisc] at hi
  exact ⟨(c5_disconnected gDisc [] rfl).2.1 ⟨1, by decide, hnf⟩, by decide, hnf⟩

/-- C6: `_add_hypermodel` admits a block only with every input node
identified: on success every input node of the block is in `node_to_id`; if
some input node is missing (after the block's own outputs were added), it
raises the missing-input `ValueError` naming the block; and after a
successful resolution every admitted block has all of its input nodes in
`node_to_id` — no block with a missing input is silently admitted. -/
theorem c6_missing_input (g : Graph) :
    (∀ (b : Nat) (hms id : List Nat) (p : List Nat × List Nat),
      addHypermodel g b hms id = .ok p → ∀ n ∈ (blockAt g b).inputs, n ∈ p.2) ∧
    (∀ (b : Nat) (hms id : List Nat),
      (∃ n ∈ (blockAt g b).inputs, n ∉ addNodes id (blockAt g b).outputs) →
      addHypermodel g b hms id = .error (.missingInput (blockAt g b).name)) ∧
    (∀ (r : Resolved), Wf g → resolve g = .ok r →
      ∀ b ∈ r.hypermodels, ∀ n ∈ (blockAt g b).inputs, n ∈ r.nodeToId) := by
  refine ⟨?_, ?_, ?_⟩
  · intro b hms id p hp n hn
    obtain ⟨q1, q2⟩ := p
    exact (addHypermodel_spec hp).2.2 n hn
  · intro b hms id hex
    exact addHypermodel_missing hex
  · intro r hwf hres
    exact (resolve_ok_spec g hwf r hres).2.2.2.2

theorem c6_witness :
    addHypermodel gA 0 [] [] = .error (.missingInput "b0") ∧
    (∀ n ∈ (blockAt gA 0).inputs, n ∈ ([0, 1] : List Nat)) := by
  have h := c6_missing_input gA
  exact ⟨h.2.1 0 [] [] ⟨0, by decide, by decide⟩, h.1 0 [] [0] ([0], [0, 1]) rfl⟩

/-- C7 counterexample: `gBP` resolves successfully to the two-block order
`[B, P]`, but `build` aborts at block `B` — whose input node 1 has no
recorded representation yet — before invoking any block: the invocation
trace is empty, not one invocation of each block in order. -/
theorem c7_counterexample :
    resolve gBP = .ok ⟨[2, 1, 0], [0, 1], [0]⟩ ∧
    buildTrace gBP ⟨[2, 1, 0], [0, 1], [0]⟩ = ([], false) ∧
    ([] : List Nat) ≠ [0, 1] := ⟨rfl, rfl, by decide⟩

/-- C7 (amended): for every successfully resolved graph, the block order
has no duplicates and `build` invokes blocks following that order without
repetition: its invocation trace is an initial segment of `block_order`,
and equals the whole of `block_order` exactly when no representation lookup
fails; a failed lookup aborts the call before invoking the offending block
(see the counterexample for an aborting run). -/
theorem c7_amended (g : Graph) (hwf : Wf g) (r : Resolved) (hres : resolve g = .ok r) :
    r.hypermodels.Nodup ∧
    (∃ rest, r.hypermodels = (buildTrace g r).1 ++ rest) ∧
    ((buildTrace g r).2 = true → (buildTrace g r).1 = r.hypermodels) := by
  obtain ⟨_, _, hnd, _, _⟩ := resolve_ok_spec g hwf r hres
  obtain ⟨hseg, hall⟩ := buildTrace_spec g r
  exact ⟨hnd, hseg, hall⟩

theorem c7_amended_witness :
    Wf gA ∧ buildTrace gA ⟨[1, 0], [0], [0]⟩ = ([0], true) ∧
    ([0] : List Nat).Nodup := by
  have h := c7_amended gA (by decide) ⟨[1, 0], [0], [0]⟩ rfl
  exact ⟨by decide, rfl, h.1⟩

/-- C8: `_build_network` is deterministic and idempotent as a transformer
of the resolver's cached state: its result is independent of the prior
`node_to_id` / `hypermodels` state (both are reassigned before use), so two
runs over the same declared topology produce identical states, and re-running
from a produced state reproduces that state. -/
theorem c8_idempotent (g : Graph) :
    (∀ s t : RState, buildNetworkS g s = buildNetworkS g t) ∧
    (∀ (s s1 : RState), buildNetworkS g s = .ok s1 → buildNetworkS g s1 = .ok s1) :=
  ⟨fun _ _ => rfl, fun _ _ h => h⟩

theorem c8_witness :
    buildNetworkS gA ⟨[], []⟩ = .ok ⟨[1, 0], [0]⟩ ∧
    buildNetworkS gA ⟨[1, 0], [0]⟩ = .ok ⟨[1, 0], [0]⟩ := by
  have h := (c8_idempotent gA).2 ⟨[], []⟩ ⟨[1, 0], [0]⟩ rfl
  exact ⟨rfl, h⟩

/-- C9 counterexample: in `gC9` resolution admits the classification block
`Q` (index 2) although no path from its output reaches a declared output;
no classification block of the resolved list is reachable to an output, yet
`_infer_metrics` selects accuracy and `_infer_loss` selects categorical
cross-entropy — not the mean-squared-error the claim prescribes. -/
theorem c9_counterexample :
    resolve gC9 = .ok ⟨[1, 0, 2, 3], [0, 1, 2], [0]⟩ ∧
    (∀ b ∈ ([0, 1, 2] : List Nat),
      (blockAt gC9 b).isClassificationHead = true → ¬ BlockLeadsOut gC9 b) ∧
    inferMetrics gC9 [0, 1, 2] = .accuracy ∧
    inferLoss gC9 [0, 1, 2] = .categoricalCrossentropy ∧
    MetricK.accuracy ≠ MetricK.mse := by
  refine ⟨rfl, ?_, rfl, rfl, by decide⟩
  intro b hb hclass
  have hb3 : b = 0 ∨ b = 1 ∨ b = 2 := by simpa using hb
  rcases hb3 with rfl | rfl | rfl
  · exact absurd hclass (by decide)
  · exact absurd hclass (by decide)
  · intro hbl
    obtain ⟨m, hm, o, ho, hro⟩ := hbl
    rw [show (blockAt gC9 2).outputs = [3] from rfl] at hm
    rcases List.mem_singleton.mp hm with rfl
    rw [show gC9.outputs = [1] from rfl] at ho
    rcases List.mem_singleton.mp ho with rfl
    have hno : ∀ c, ¬ Edge gC9 3 c := by
      rintro c ⟨blk, hmem, hx, _⟩
      simp only [gC9, List.mem_cons, List.not_mem_nil, or_false] at hmem
      rcases hmem with rfl | rfl | rfl <;> simp at hx
    have h13 := reaches_self_of_no_out hno hro
    exact absurd h13 (by decide)

/-- C9 (amended): metric and loss selection is a pure function of the
resolved block list's types: accuracy together with categorical
cross-entropy is selected iff some block of the resolved list is a
`ClassificationHead` (whether or not it is reachable to an output — see the
counterexample), and mean-squared-error metric and loss are selected iff no
block of the list is one. -/
theorem c9_amended (g : Graph) (r : Resolved) (_hres : resolve g = .ok r) :
    ((inferMetrics g r.hypermodels = .accuracy ∧
      inferLoss g r.hypermodels = .categoricalCrossentropy) ↔
      ∃ b ∈ r.hypermodels, (blockAt g b).isClassificationHead = true) ∧
    ((inferMetrics g r.hypermodels = .mse ∧
      inferLoss g r.hypermodels = .meanSquaredError) ↔
      ¬ ∃ b ∈ r.hypermodels, (blockAt g b).isClassificationHead = true) := by
  obtain ⟨i1, i2, i3, i4⟩ := inferMetrics_iff g r.hypermodels
  constructor
  · constructor
    · rintro ⟨h, _⟩
      exact i1.mp h
    · intro hex
      exact ⟨i1.mpr hex, i2.mpr hex⟩
  · constructor
    · rintro ⟨h, _⟩
      exact i3.mp h
    · intro hnex
      exact ⟨i3.mpr hnex, i4.mpr hnex⟩

theorem c9_amended_witness :
    inferMetrics gA [0] = .mse ∧ inferLoss gA [0] = .meanSquaredError := by
  have h := c9_amended gA ⟨[1, 0], [0], [0]⟩ rfl
  exact h.2.mpr (by decide)

/-- C10: the finalization of `_build_network` reads `in_hypermodels[0]` of
every declared output without a guard: when phases 1-2 succeed and every
declared output has at least one producing block, the access is safe and
`_build_network` completes; for `gSelf` — a node declared both input and
output with no producing block — the connectivity check passes (phases 1-2
succeed) yet resolution fails with the unguarded indexing error rather than
one of the declared diagnostics. -/
theorem c10_finalize (g : Graph) :
    (∀ p : List Nat × List Nat, resolveCore g = .ok p →
      (∀ o ∈ g.outputs, inHypermodels g o ≠ []) → ∃ r, resolve g = .ok r) ∧
    resolveCore gSelf = .ok ([], [0]) ∧
    resolve gSelf = .error .indexError := by
  refine ⟨?_, rfl, rfl⟩
  intro p hcore hprod
  obtain ⟨q1, q2⟩ := p
  obtain ⟨bs, hbs⟩ := finalize_ok_of_producers g g.outputs hprod
  refine ⟨⟨q2, q1, bs⟩, ?_⟩
  unfold resolve
  rw [hcore]
  dsimp only
  rw [hbs]

theorem c10_witness :
    resolveCore gA = .ok ([0], [1, 0]) ∧ ∃ r, resolve gA = .ok r := by
  have h := (c10_finalize gA).1 ([0], [1, 0]) rfl (by decide)
  exact ⟨rfl, h⟩
